import Mathlib

/-!
Verification of the JSON-stat2 tabular decoder and the Pearson correlation
helper of the truth_engine repository.

The decoder (`parse_json_stat`) is duplicated near-identically across the
fetch scripts.  We embed two representative variants:

* `Fertility.parse_json_stat` — the variant of `scripts/fetch_fertility.py`
  (also textually identical, up to the record field names, to the variants in
  `fetch_gdp_sectors.py`, `fetch_government_debt.py`, `fetch_public_spending.py`,
  `fetch_spending_efficiency.py`, `fetch_trade_balance.py` and
  `fetch_employment_sectors.py`);
* `Population.parse_json_stat` — the variant of `scripts/fetch_population.py`
  (same loop but the value field is keyed `"population"` and the per-dimension
  code field is keyed by the bare dimension id).

Python dicts are modelled as association lists in insertion order where a
later binding for a key overrides an earlier one; dict lookup (`.get`) and
dict assignment (`d[k] = v`) are `dget` and `dinsert` below.  Python integer
division and modulo on non-negative integers coincide with `Nat` division and
modulo.  Runtime errors the Python code can actually raise inside the decoder
(`IndexError` from `data["size"][...]`, `ZeroDivisionError` from a zero
stride) are modelled with `Except String`; the source defines no
`MalformedTableError` and performs no size validation.
-/

namespace TruthEngine

/-- A value stored in a decoded record dict: the numeric cell value, or a
string (a category code or label). -/
inductive PyVal (α : Type) where
  | num (v : α)
  | str (s : String)
deriving DecidableEq

/-- A decoded record: a Python dict, modelled as an association list in
insertion order. -/
abbrev Record (α : Type) := List (String × PyVal α)

/-- Python `dict.get k` (returning `None` when absent), on a dict modelled as
an association list where a later binding for the same key overrides an
earlier one. -/
def dget {κ ν : Type} [DecidableEq κ] : List (κ × ν) → κ → Option ν
  | [], _ => none
  | p :: l, k =>
    match dget l k with
    | some v => some v
    | none => if p.1 = k then some p.2 else none

/-- Python dict assignment `d[k] = v`: replaces the binding in place when the
key is present, otherwise appends a new binding at the end. -/
def dinsert {κ ν : Type} [DecidableEq κ] (l : List (κ × ν)) (k : κ) (v : ν) :
    List (κ × ν) :=
  if l.any (fun p => p.1 = k) then
    l.map (fun p => if p.1 = k then (k, v) else p)
  else
    l ++ [(k, v)]

/-- The `"category"` object of a JSON-stat dimension: a `"label"` dict
(code to label) and an `"index"` dict (code to position).  A missing
`"label"` or `"index"` key is modelled as the empty dict, which is exactly
how the source reads it (`categories.get('label', {})`,
`categories.get('index', {})`). -/
structure Category where
  label : List (String × String)
  index : List (String × Nat)
deriving DecidableEq

/-- A JSON-stat dimension object; the decoder only reads its `"category"`
member (`dim.get('category', {})`), so only that member is modelled. -/
structure Dimension where
  category : Category
deriving DecidableEq

/-- The empty `"category"` object, the default taken when a dimension is
missing from the `"dimension"` dict. -/
def emptyCategory : Category := ⟨[], []⟩

/-- A JSON-stat2 response as read by the decoder: the `"dimension"` dict, the
declared dimension-order list `"id"`, the size list `"size"` (same order as
`"id"`), and the flat `"value"` array with `null` cells as `none`.  The cell
value type `α` is a parameter (Python is untyped; values are carried through
opaquely). -/
structure JsonStatData (α : Type) where
  dimension : List (String × Dimension)
  id : List String
  size : List Nat
  value : List (Option α)
deriving DecidableEq

/-- The per-dimension info dict built by the decoder's first loop
(`dim_info[dim_id] = {'size': ..., 'labels': ..., 'index': ...}`); the
`reverse_index` key is added by the second loop and is the empty dict until
then. -/
structure DimInfo where
  size : Nat
  labels : List (String × String)
  index : List (String × Nat)
  reverse_index : List (Nat × String)
deriving DecidableEq, Inhabited

namespace Fertility

variable {α : Type}

/-- First loop of `parse_json_stat` (fetch_fertility.py lines 59–67): for each
`dim_id` in `dim_order`, read the dimension (default empty), its category
(default empty), and `data['size'][dim_order.index(dim_id)]` — the only
subscript here that can raise (`IndexError`) when the size list is shorter
than the position of the dimension id. -/
def buildInfoGo (d : JsonStatData α) : List String → List (String × DimInfo) →
    Except String (List (String × DimInfo))
  | [], acc => .ok acc
  | dim_id :: rest, acc =>
    let dim := (dget d.dimension dim_id).getD ⟨emptyCategory⟩
    let categories := dim.category
    match d.size.get? (d.id.indexOf dim_id) with
    | none => .error "IndexError"
    | some sz =>
      buildInfoGo d rest (dinsert acc dim_id
        { size := sz, labels := categories.label, index := categories.index,
          reverse_index := [] })

/-- Attach the reverse index `{v: k for k, v in index.items()}` to one
`dim_info` entry (position to code, later bindings overriding earlier ones
exactly as the dict comprehension does). -/
def reverseOne (di : DimInfo) : DimInfo :=
  { size := di.size, labels := di.labels, index := di.index,
    reverse_index := di.index.map (fun q => (q.2, q.1)) }

/-- Second loop (lines 69–71): add the reverse index to every `dim_info`
entry. -/
def addReverse (info : List (String × DimInfo)) : List (String × DimInfo) :=
  info.map (fun p => (p.1, reverseOne p.2))

/-- The `dim_info` dict as it stands when the stride loop starts. -/
def buildDimInfo (d : JsonStatData α) : Except String (List (String × DimInfo)) :=
  (buildInfoGo d d.id []).map addReverse

/-- Stride loop (lines 76–80): iterate `reversed(dim_order)`, prepending the
running stride (`strides.insert(0, stride)`) and then multiplying it by the
dimension's size.  The `dim_info[dim_id]` subscript cannot fail here because
every id of `dim_order` was inserted by the first loop; the lookup default is
therefore never taken. -/
def stridesGo (info : List (String × DimInfo)) :
    List String → List Nat → Nat → List Nat
  | [], strides, _ => strides
  | dim_id :: rest, strides, stride =>
    stridesGo info rest (stride :: strides)
      (stride * ((dget info dim_id).getD default).size)

/-- The strides list computed by the decoder. -/
def computeStrides (d : JsonStatData α) (info : List (String × DimInfo)) :
    List Nat :=
  stridesGo info d.id.reverse [] 1

/-- Per-record inner loop (lines 88–97) over `enumerate(dim_order)`:
mixed-radix decomposition `dim_idx = remaining // strides[j]`,
`remaining = remaining % strides[j]`, then code via the reverse index with
the stringified index as fallback, and label via the label dict with the code
as fallback.  `strides[j]` raises `IndexError` when out of range and the
division raises `ZeroDivisionError` on a zero stride. -/
def decodeDimsGo (info : List (String × DimInfo)) (strides : List Nat) :
    List (Nat × String) → Nat → Record α → Except String (Record α)
  | [], _, record => .ok record
  | (j, dim_id) :: rest, remaining, record =>
    match strides.get? j with
    | none => .error "IndexError"
    | some s =>
      if s = 0 then .error "ZeroDivisionError"
      else
        let dim_idx := remaining / s
        let code := (dget ((dget info dim_id).getD default).reverse_index
          dim_idx).getD (toString dim_idx)
        let label := (dget ((dget info dim_id).getD default).labels code).getD code
        decodeDimsGo info strides rest (remaining % s)
          (dinsert (dinsert record (dim_id ++ "_code") (.str code))
            (dim_id ++ "_label") (.str label))

/-- Outer loop (lines 82–99) over `enumerate(values)`: null cells are skipped
(`continue`), each non-null cell starts the record dict `{'value': value}`
and appends the decoded record. -/
def parseValuesGo (d : JsonStatData α) (info : List (String × DimInfo))
    (strides : List Nat) :
    List (Nat × Option α) → List (Record α) → Except String (List (Record α))
  | [], records => .ok records
  | (_, none) :: rest, records => parseValuesGo d info strides rest records
  | (i, some v) :: rest, records => do
    let r ← decodeDimsGo info strides d.id.enum i [("value", .num v)]
    parseValuesGo d info strides rest (records ++ [r])

/-- The decoder `parse_json_stat` of fetch_fertility.py (lines 47–101).  The
two early returns (`if not data`, `if not dimensions or not values`) both
collapse to the emptiness test below: a falsy `data` has no `"dimension"`
key, hence an empty `dimensions` dict. -/
def parse_json_stat (d : JsonStatData α) : Except String (List (Record α)) :=
  if d.dimension.isEmpty ∨ d.value.isEmpty then .ok []
  else do
    let info ← buildDimInfo d
    parseValuesGo d info (computeStrides d info) d.value.enum []

end Fertility

/-! ### Functional description of the decoder

The definitions below restate the decoder's arithmetic in direct structural
recursion; they are proved equal to the accumulator loops above and are the
vehicle for the correctness statements. -/

variable {α : Type}

/-- The size the decoder associates with a dimension id:
`data['size'][dim_order.index(dim_id)]` (first occurrence of the id in the
declared order). -/
def sizeOfDim (d : JsonStatData α) (dim_id : String) : Nat :=
  d.size.getD (d.id.indexOf dim_id) 0

/-- The per-dimension sizes in declared order. -/
def sizesOf (d : JsonStatData α) : List Nat := d.id.map (sizeOfDim d)

/-- The category object the decoder reads for a dimension id (empty when the
id has no entry in the `"dimension"` dict). -/
def catOf (d : JsonStatData α) (dim_id : String) : Category :=
  ((dget d.dimension dim_id).getD ⟨emptyCategory⟩).category

/-- The reverse index (position to code) built for a dimension id. -/
def revIndexOf (d : JsonStatData α) (dim_id : String) : List (Nat × String) :=
  (catOf d dim_id).index.map (fun q => (q.2, q.1))

/-- The code the decoder emits for category position `k` of a dimension: the
reverse-index entry, or the stringified position as fallback. -/
def codeAt (d : JsonStatData α) (dim_id : String) (k : Nat) : String :=
  (dget (revIndexOf d dim_id) k).getD (toString k)

/-- The label the decoder emits for category position `k`: the label-map entry
for the code, or the code itself as fallback. -/
def labelAt (d : JsonStatData α) (dim_id : String) (k : Nat) : String :=
  (dget (catOf d dim_id).label (codeAt d dim_id k)).getD (codeAt d dim_id k)

/-- The `dim_info` entry for a dimension id, reverse index included. -/
def infoSpec (d : JsonStatData α) (dim_id : String) : DimInfo :=
  { size := sizeOfDim d dim_id
    labels := (catOf d dim_id).label
    index := (catOf d dim_id).index
    reverse_index := revIndexOf d dim_id }

/-- Strides of a size list: `stride j` is the product of all later sizes, and
the stride of the last dimension is 1. -/
def stridesSpec : List Nat → List Nat
  | [] => []
  | _ :: rest => rest.prod :: stridesSpec rest

/-- Mixed-radix decomposition of a flat index along a size list, exactly as
the decoder's inner loop computes it (`dim_idx = remaining // stride`,
`remaining = remaining % stride`). -/
def digitsSpec : List Nat → Nat → List Nat
  | [], _ => []
  | _ :: rest, i => (i / rest.prod) :: digitsSpec rest (i % rest.prod)

/-- Row-major recomposition of per-dimension indices into a flat index; the
inverse of `digitsSpec` on well-formed input. -/
def recompose : List Nat → List Nat → Nat
  | _ :: rest, k :: ks => k * rest.prod + recompose rest ks
  | _, _ => 0

/-- The digit the decoder computes for dimension `dim_id` at flat index `i`. -/
def digitOf (d : JsonStatData α) (dim_id : String) (i : Nat) : Nat :=
  (digitsSpec (sizesOf d) i).getD (d.id.indexOf dim_id) 0

/-- The code/label field pairs of the record for flat index `i` (fertility
variant: keys `<dim>_code` and `<dim>_label`). -/
def recFields (d : JsonStatData α) (i : Nat) : List (String × PyVal α) :=
  (d.id.zip (digitsSpec (sizesOf d) i)).flatMap
    (fun p => [(p.1 ++ "_code", .str (codeAt d p.1 p.2)),
               (p.1 ++ "_label", .str (labelAt d p.1 p.2))])

/-- The record emitted for a non-null cell `v` at flat index `i`. -/
def recAt (d : JsonStatData α) (i : Nat) (v : α) : Record α :=
  ("value", .num v) :: recFields d i

/-- The full output of the fertility-variant decoder: one record per non-null
cell, in ascending flat-index order. -/
def parseSpec (d : JsonStatData α) : List (Record α) :=
  d.value.enum.filterMap (fun p => p.2.map (recAt d p.1))

/-- The per-dimension code list of the record for flat index `i`. -/
def codesAt (d : JsonStatData α) (i : Nat) : List String :=
  (d.id.zip (digitsSpec (sizesOf d) i)).map (fun p => codeAt d p.1 p.2)

/-- The code combination of a record, read back by looking up every
`<dim>_code` field in declared dimension order. -/
def recCodes (d : JsonStatData α) (r : Record α) : List (Option (PyVal α)) :=
  d.id.map (fun id => dget r (id ++ "_code"))

/-- The expected code combination of the cell at flat index `i`, in the shape
`recCodes` produces. -/
def codesDescr (d : JsonStatData α) (i : Nat) : List (Option (PyVal α)) :=
  (codesAt d i).map (fun c => some (PyVal.str c))

/-- Transposition of flat indices between two declared dimension orders: take
the per-dimension digits of `i` under `d2`'s order and reflatten them under
`d1`'s order. -/
def transposeIdx (d1 d2 : JsonStatData α) (i : Nat) : Nat :=
  recompose (sizesOf d1) (d1.id.map (fun id => digitOf d2 id i))

/-- The semantic content of a record relative to a reference dimension order:
the code field of every dimension, and the value field. -/
def semOf (L : List String) (r : Record α) :
    List (Option (PyVal α)) × Option (PyVal α) :=
  (L.map (fun id => dget r (id ++ "_code")), dget r "value")

namespace Fertility

/-- The `dim_info` entry as built by the first loop, before the reverse index
is attached. -/
def preInfoSpec (d : JsonStatData α) (dim_id : String) : DimInfo :=
  { size := sizeOfDim d dim_id
    labels := (catOf d dim_id).label
    index := (catOf d dim_id).index
    reverse_index := [] }

/-- The size the stride loop reads for a dimension id out of `dim_info`. -/
def szIn (info : List (String × DimInfo)) (dim_id : String) : Nat :=
  ((dget info dim_id).getD default).size

/-- The record fields contributed by the dimensions from position `j` on,
with remaining value `r`. -/
def fieldsFrom (d : JsonStatData α) (j r : Nat) : List (String × PyVal α) :=
  ((d.id.drop j).zip (digitsSpec ((sizesOf d).drop j) r)).flatMap
    (fun p => [(p.1 ++ "_code", .str (codeAt d p.1 p.2)),
               (p.1 ++ "_label", .str (labelAt d p.1 p.2))])

end Fertility

namespace Population

variable {α : Type}

/-- First loop of `parse_json_stat` in fetch_population.py (lines 108–117):
unlike the fertility variant there are no `.get` defaults — the dimension is
read with a subscript (`dimensions[dim_id]`), raising `KeyError` when the id
has no metadata entry.  (`dim['category']` is always present in this model,
since a `Dimension` carries its category.) -/
def buildInfoGo (d : JsonStatData α) : List String → List (String × DimInfo) →
    Except String (List (String × DimInfo))
  | [], acc => .ok acc
  | dim_id :: rest, acc =>
    match dget d.dimension dim_id with
    | none => .error "KeyError"
    | some dim =>
      match d.size.get? (d.id.indexOf dim_id) with
      | none => .error "IndexError"
      | some sz =>
        buildInfoGo d rest (dinsert acc dim_id
          { size := sz, labels := dim.category.label,
            index := dim.category.index, reverse_index := [] })

/-- The reverse-index loop is textually identical to the fertility variant. -/
def buildDimInfo (d : JsonStatData α) : Except String (List (String × DimInfo)) :=
  (buildInfoGo d d.id []).map Fertility.addReverse

/-- Per-record inner loop (lines 138–147): identical decomposition, but the
code is stored under the bare dimension id (`record[dim_id] = code`) while
the label keeps the `<dim>_label` key. -/
def decodeDimsGo (info : List (String × DimInfo)) (strides : List Nat) :
    List (Nat × String) → Nat → Record α → Except String (Record α)
  | [], _, record => .ok record
  | (j, dim_id) :: rest, remaining, record =>
    match strides.get? j with
    | none => .error "IndexError"
    | some s =>
      if s = 0 then .error "ZeroDivisionError"
      else
        let dim_idx := remaining / s
        let code := (dget ((dget info dim_id).getD default).reverse_index
          dim_idx).getD (toString dim_idx)
        let label := (dget ((dget info dim_id).getD default).labels code).getD code
        decodeDimsGo info strides rest (remaining % s)
          (dinsert (dinsert record dim_id (.str code))
            (dim_id ++ "_label") (.str label))

/-- Outer loop (lines 132–149): the record starts `{'population': value}`. -/
def parseValuesGo (d : JsonStatData α) (info : List (String × DimInfo))
    (strides : List Nat) :
    List (Nat × Option α) → List (Record α) → Except String (List (Record α))
  | [], records => .ok records
  | (_, none) :: rest, records => parseValuesGo d info strides rest records
  | (i, some v) :: rest, records => do
    let r ← decodeDimsGo info strides d.id.enum i [("population", .num v)]
    parseValuesGo d info strides rest (records ++ [r])

/-- The decoder `parse_json_stat` of fetch_population.py (lines 102–150); it
has no early returns. -/
def parse_json_stat (d : JsonStatData α) : Except String (List (Record α)) := do
  let info ← buildDimInfo d
  parseValuesGo d info (Fertility.computeStrides d info) d.value.enum []

/-- The code/label field pairs of a population-variant record from dimension
position `j` on. -/
def fieldsFrom (d : JsonStatData α) (j r : Nat) : List (String × PyVal α) :=
  ((d.id.drop j).zip (digitsSpec ((sizesOf d).drop j) r)).flatMap
    (fun p => [(p.1, .str (codeAt d p.1 p.2)),
               (p.1 ++ "_label", .str (labelAt d p.1 p.2))])

/-- The population-variant record for a non-null cell. -/
def recAt (d : JsonStatData α) (i : Nat) (v : α) : Record α :=
  ("population", .num v) :: fieldsFrom d 0 i

/-- The full output of the population-variant decoder. -/
def parseSpec (d : JsonStatData α) : List (Record α) :=
  d.value.enum.filterMap (fun p => p.2.map (recAt d p.1))

end Population

/-! ### Concrete tables used in the claim instances -/

/-- The specification's concrete scenario: `Year` (codes 2015, 2016) times
`Category` (codes A, B, C), declared order `[Year, Category]`, value array
`[10, 11, 12, 20, 21, 22]`. -/
def exTable : JsonStatData Int :=
  { dimension :=
      [("Year", ⟨⟨[("2015", "2015"), ("2016", "2016")],
                  [("2015", 0), ("2016", 1)]⟩⟩),
       ("Category", ⟨⟨[("A", "A"), ("B", "B"), ("C", "C")],
                      [("A", 0), ("B", 1), ("C", 2)]⟩⟩)],
    id := ["Year", "Category"],
    size := [2, 3],
    value := [some 10, some 11, some 12, some 20, some 21, some 22] }

/-- The concrete scenario with a malformed value array: five values for a
declared 2 times 3 layout. -/
def exTableBadLen : JsonStatData Int :=
  { exTable with value := [some 10, some 11, some 12, some 20, some 21] }

/-- The concrete scenario with one null cell (`value[2] = null`). -/
def exTableNull : JsonStatData Int :=
  { exTable with value := [some 10, some 11, none, some 20, some 21, some 22] }

/-- The transposed concrete scenario: declared order `[Category, Year]` with
the value array reordered accordingly. -/
def exTableT : JsonStatData Int :=
  { exTable with
    id := ["Category", "Year"],
    size := [3, 2],
    value := [some 10, some 20, some 11, some 21, some 12, some 22] }

/-- A one-dimensional table whose only dimension declares size 2 but indexes
a single category, so flat index 1 decomposes to an out-of-range category
index. -/
def exTableMissIdx : JsonStatData Int :=
  { dimension := [("A", ⟨⟨[("x", "Ex")], [("x", 0)]⟩⟩)],
    id := ["A"],
    size := [2],
    value := [some 5, some 7] }

/-- A one-dimensional table whose dimension has labels but no index map at
all, and whose label map happens to contain the stringified position 0. -/
def exTableNoIndex : JsonStatData Int :=
  { dimension := [("A", ⟨⟨[("0", "Total")], []⟩⟩)],
    id := ["A"],
    size := [1],
    value := [some 9] }

/-- A one-dimensional table with a complete index but a label missing for
code `B`. -/
def exTableMissLabel : JsonStatData Int :=
  { dimension := [("A", ⟨⟨[("a", "Alpha")], [("a", 0), ("B", 1)]⟩⟩)],
    id := ["A"],
    size := [2],
    value := [some 5, some 7] }

/-- A small well-formed table for the population-variant decoder. -/
def exTablePop : JsonStatData Int :=
  { dimension := [("Vuosi", ⟨⟨[("2020", "2020")], [("2020", 0)]⟩⟩)],
    id := ["Vuosi"],
    size := [1],
    value := [some 7] }

/-! ### Pearson correlation (fetch_fertility.py lines 253–269)

Python floats are idealized as real numbers; `zip` truncates to the shorter
list and `math.sqrt` is the real square root, as in the source. -/

/-- The `pearson_correlation` helper: returns 0.0 for fewer than three
points, computes the two means, the covariance numerator over `zip(x, y)`,
the two root-sum-of-squares denominators, returns 0.0 when either
denominator is zero, and otherwise the ratio. -/
noncomputable def pearson_correlation (x y : List ℝ) : ℝ :=
  let n := x.length
  if n < 3 then 0
  else
    let mean_x := x.sum / n
    let mean_y := y.sum / n
    let numerator :=
      ((x.zip y).map (fun p => (p.1 - mean_x) * (p.2 - mean_y))).sum
    let denominator_x := Real.sqrt ((x.map (fun xi => (xi - mean_x) ^ 2)).sum)
    let denominator_y := Real.sqrt ((y.map (fun yi => (yi - mean_y) ^ 2)).sum)
    if denominator_x = 0 ∨ denominator_y = 0 then 0
    else numerator / (denominator_x * denominator_y)

/-- The sample Pearson correlation coefficient of two series, stated directly
from its textbook formula (deviations taken from each series' own mean, the
covariance sum over the paired elements). -/
noncomputable def pearsonCoeff (x y : List ℝ) : ℝ :=
  ((x.zip y).map
      (fun p => (p.1 - x.sum / x.length) * (p.2 - y.sum / y.length))).sum /
    (Real.sqrt ((x.map (fun a => (a - x.sum / x.length) ^ 2)).sum) *
     Real.sqrt ((y.map (fun a => (a - y.sum / y.length) ^ 2)).sum))

/-- A series has zero variance when every element equals its mean (all
deviations from the mean are zero). -/
def zeroVariance (l : List ℝ) : Prop :=
  ∀ a ∈ l, a = l.sum / l.length

/-! ### Dict lemmas -/

theorem dget_nil {κ ν : Type} [DecidableEq κ] (k : κ) :
    dget ([] : List (κ × ν)) k = none := rfl

theorem dget_cons {κ ν : Type} [DecidableEq κ] (p : κ × ν) (l : List (κ × ν))
    (k : κ) :
    dget (p :: l) k =
      match dget l k with
      | some v => some v
      | none => if p.1 = k then some p.2 else none := rfl

theorem dget_append {κ ν : Type} [DecidableEq κ] (l₁ l₂ : List (κ × ν)) (k : κ) :
    dget (l₁ ++ l₂) k =
      match dget l₂ k with
      | some v => some v
      | none => dget l₁ k := by
  induction l₁ with
  | nil =>
    rw [List.nil_append]
    cases dget l₂ k <;> rfl
  | cons p l ih =>
    simp only [List.cons_append, dget_cons, ih]
    cases dget l₂ k <;> cases dget l k <;> rfl

theorem dget_eq_none_of_forall_ne {κ ν : Type} [DecidableEq κ]
    {l : List (κ × ν)} {k : κ} (h : ∀ p ∈ l, p.1 ≠ k) : dget l k = none := by
  induction l with
  | nil => rfl
  | cons p l ih =>
    rw [dget_cons, ih (fun q hq => h q (List.mem_cons_of_mem _ hq))]
    simp [h p (List.mem_cons_self _ _)]

theorem dget_mem {κ ν : Type} [DecidableEq κ] {l : List (κ × ν)} {k : κ} {v : ν}
    (h : dget l k = some v) : (k, v) ∈ l := by
  induction l with
  | nil => simp [dget_nil] at h
  | cons p l ih =>
    rw [dget_cons] at h
    cases hl : dget l k with
    | some w =>
      rw [hl] at h
      cases h
      exact List.mem_cons_of_mem _ (ih hl)
    | none =>
      rw [hl] at h
      by_cases hk : p.1 = k
      · simp only [hk, if_pos rfl] at h
        cases h
        cases p with
        | mk a b =>
          cases hk
          exact List.mem_cons_self _ _
      · simp [hk] at h

theorem dget_map_values {κ ν ν' : Type} [DecidableEq κ] (f : ν → ν')
    (l : List (κ × ν)) (k : κ) :
    dget (l.map (fun p => (p.1, f p.2))) k = (dget l k).map f := by
  induction l with
  | nil => rfl
  | cons p l ih =>
    simp only [List.map_cons, dget_cons, ih]
    cases dget l k <;> simp

theorem dget_cons_some {κ ν : Type} [DecidableEq κ] {p : κ × ν}
    {l : List (κ × ν)} {k : κ} {v : ν} (h : dget l k = some v) :
    dget (p :: l) k = some v := by
  rw [dget_cons, h]

theorem dget_cons_none {κ ν : Type} [DecidableEq κ] {p : κ × ν}
    {l : List (κ × ν)} {k : κ} (h : dget l k = none) :
    dget (p :: l) k = if p.1 = k then some p.2 else none := by
  rw [dget_cons, h]

theorem dget_map_replace {κ ν : Type} [DecidableEq κ] (l : List (κ × ν))
    (k : κ) (v : ν) (k' : κ) :
    dget (l.map (fun p => if p.1 = k then (k, v) else p)) k' =
      if k' = k then (if (dget l k).isSome then some v else none)
      else dget l k' := by
  induction l with
  | nil => by_cases hk : k' = k <;> simp [dget_nil, hk]
  | cons p l ih =>
    simp only [List.map_cons]
    by_cases hk : k' = k
    · subst hk
      rw [if_pos rfl] at ih ⊢
      cases hlk : dget l k' with
      | some w =>
        have hm : dget (l.map (fun p => if p.1 = k' then (k', v) else p)) k' =
            some v := by
          rw [ih, hlk]
          rfl
        rw [dget_cons_some hm, dget_cons_some hlk]
        rfl
      | none =>
        have hm : dget (l.map (fun p => if p.1 = k' then (k', v) else p)) k' =
            none := by
          rw [ih, hlk]
          rfl
        rw [dget_cons_none hm, dget_cons_none hlk]
        by_cases hp : p.1 = k'
        · simp [hp]
        · simp [hp]
    · rw [if_neg hk] at ih ⊢
      cases hlk' : dget l k' with
      | some w =>
        have hm : dget (l.map (fun p => if p.1 = k then (k, v) else p)) k' =
            some w := by
          rw [ih, hlk']
        rw [dget_cons_some hm, dget_cons_some hlk']
      | none =>
        have hm : dget (l.map (fun p => if p.1 = k then (k, v) else p)) k' =
            none := by
          rw [ih, hlk']
        rw [dget_cons_none hm, dget_cons_none hlk']
        by_cases hp : p.1 = k
        · have hne : k ≠ k' := fun h => hk h.symm
          rw [hp]
          simp [if_neg hne]
        · simp [hp]

theorem isSome_dget_of_any {κ ν : Type} [DecidableEq κ] {l : List (κ × ν)}
    {k : κ} (h : l.any (fun p => p.1 = k) = true) : (dget l k).isSome := by
  induction l with
  | nil => simp at h
  | cons p l ih =>
    rw [dget_cons]
    simp only [List.any_cons, Bool.or_eq_true, decide_eq_true_eq] at h
    cases hl : dget l k with
    | some w => rfl
    | none =>
      rcases h with h | h
      · simp [h]
      · have := ih h
        rw [hl] at this
        simp at this

theorem dget_dinsert {κ ν : Type} [DecidableEq κ] (l : List (κ × ν)) (k : κ)
    (v : ν) (k' : κ) :
    dget (dinsert l k v) k' = if k' = k then some v else dget l k' := by
  unfold dinsert
  by_cases hany : l.any (fun p => p.1 = k)
  · rw [if_pos hany, dget_map_replace]
    by_cases hk : k' = k
    · simp [hk, isSome_dget_of_any hany]
    · simp [hk]
  · rw [if_neg hany, dget_append]
    by_cases hk : k' = k
    · subst hk
      simp [dget_cons, dget_nil]
    · have hne : k ≠ k' := fun h => hk h.symm
      have : dget [(k, v)] k' = none := by
        simp [dget_cons, dget_nil, if_neg hne]
      rw [this]
      simp [hk]

/-! ### Record key disjointness

The record keys `"value"`, `<dim>_code` and `<dim>_label` can never collide
for distinct dimension ids, which pins down every dict lookup in a record. -/

theorem append_code_inj {a b : String} (h : a ++ "_code" = b ++ "_code") :
    a = b := by
  apply String.ext
  have hd := congrArg String.data h
  rw [String.data_append, String.data_append] at hd
  exact List.append_cancel_right hd

theorem append_label_inj {a b : String} (h : a ++ "_label" = b ++ "_label") :
    a = b := by
  apply String.ext
  have hd := congrArg String.data h
  rw [String.data_append, String.data_append] at hd
  exact List.append_cancel_right hd

theorem code_ne_label (a b : String) : a ++ "_code" ≠ b ++ "_label" := by
  intro h
  have hd := congrArg String.data h
  rw [String.data_append, String.data_append] at hd
  have h2 := congrArg List.getLast? hd
  rw [List.getLast?_append, List.getLast?_append] at h2
  have hc : ("_code" : String).data.getLast? = some 'e' := by decide
  have hl : ("_label" : String).data.getLast? = some 'l' := by decide
  rw [hc, hl] at h2
  simp [Option.or] at h2

theorem value_ne_code (a : String) : "value" ≠ a ++ "_code" := by
  intro h
  have hlen := congrArg String.length h
  rw [String.length_append] at hlen
  have h5 : ("value" : String).length = 5 := by decide
  have h5c : ("_code" : String).length = 5 := by decide
  rw [h5, h5c] at hlen
  have hz : a.length = 0 := by omega
  have ha : a = "" := String.ext (List.length_eq_zero.mp hz)
  subst ha
  exact absurd h (by decide)

theorem value_ne_label (a : String) : "value" ≠ a ++ "_label" := by
  intro h
  have hlen := congrArg String.length h
  rw [String.length_append] at hlen
  have h5 : ("value" : String).length = 5 := by decide
  have h6 : ("_label" : String).length = 6 := by decide
  rw [h5, h6] at hlen
  omega

/-! ### Size and stride arithmetic -/

theorem length_stridesSpec (L : List Nat) : (stridesSpec L).length = L.length := by
  induction L with
  | nil => rfl
  | cons s rest ih => simp [stridesSpec, ih]

theorem stridesSpec_get? (L : List Nat) (j : Nat) (hj : j < L.length) :
    (stridesSpec L).get? j = some ((L.drop (j + 1)).prod) := by
  induction L generalizing j with
  | nil => simp at hj
  | cons s rest ih =>
    cases j with
    | zero => rfl
    | succ j =>
      simp only [stridesSpec, List.get?_cons_succ, List.drop_succ_cons]
      exact ih j (by simpa using hj)

theorem prod_pos_of_forall_pos {L : List Nat} (h : ∀ s ∈ L, 0 < s) :
    0 < L.prod := by
  induction L with
  | nil => simp
  | cons s rest ih =>
    rw [List.prod_cons]
    exact Nat.mul_pos (h s (List.mem_cons_self _ _))
      (ih (fun t ht => h t (List.mem_cons_of_mem _ ht)))

theorem length_digitsSpec (L : List Nat) (i : Nat) :
    (digitsSpec L i).length = L.length := by
  induction L generalizing i with
  | nil => rfl
  | cons s rest ih => simp [digitsSpec, ih]

/-! ### Characterization of the dim_info construction -/

namespace Fertility

variable {α : Type}

theorem buildInfoGo_spec (d : JsonStatData α) :
    ∀ (todo : List String) (acc : List (String × DimInfo)),
      (∀ id ∈ todo, (d.size.get? (d.id.indexOf id)).isSome) →
      ∃ res, buildInfoGo d todo acc = .ok res ∧
        ∀ k, dget res k =
          if k ∈ todo then some (preInfoSpec d k) else dget acc k := by
  intro todo
  induction todo with
  | nil =>
    intro acc _
    exact ⟨acc, rfl, fun k => by simp⟩
  | cons id rest ih =>
    intro acc h
    obtain ⟨sz, hsz⟩ := Option.isSome_iff_exists.mp (h id (List.mem_cons_self _ _))
    have hstep : buildInfoGo d (id :: rest) acc =
        buildInfoGo d rest (dinsert acc id (preInfoSpec d id)) := by
      have hgd : sizeOfDim d id = sz := by
        unfold sizeOfDim
        rw [List.getD_eq_getD_get?, hsz]
        rfl
      simp only [buildInfoGo]
      rw [hsz]
      simp only [preInfoSpec, catOf]
      rw [hgd]
    rw [hstep]
    obtain ⟨res, hres, hspec⟩ :=
      ih (dinsert acc id (preInfoSpec d id))
        (fun i hi => h i (List.mem_cons_of_mem _ hi))
    refine ⟨res, hres, fun k => ?_⟩
    rw [hspec k, dget_dinsert]
    by_cases hkr : k ∈ rest
    · simp [hkr]
    · by_cases hki : k = id
      · simp [hkr, hki]
      · simp [hkr, hki]

theorem buildDimInfo_spec (d : JsonStatData α)
    (h : ∀ id ∈ d.id, (d.size.get? (d.id.indexOf id)).isSome) :
    ∃ res, buildDimInfo d = .ok res ∧
      ∀ k, dget res k = if k ∈ d.id then some (infoSpec d k) else none := by
  obtain ⟨res, hres, hspec⟩ := buildInfoGo_spec d d.id [] h
  refine ⟨addReverse res, ?_, fun k => ?_⟩
  · unfold buildDimInfo
    rw [hres]
    rfl
  · unfold addReverse
    rw [dget_map_values reverseOne res k, hspec k]
    by_cases hk : k ∈ d.id
    · simp only [hk, if_pos rfl, Option.map_some]
      rfl
    · simp [hk, dget_nil]

theorem size_get_isSome_of_le (d : JsonStatData α)
    (hlen : d.id.length ≤ d.size.length) :
    ∀ id ∈ d.id, (d.size.get? (d.id.indexOf id)).isSome := by
  intro id hid
  have h1 : d.id.indexOf id < d.id.length := List.indexOf_lt_length.mpr hid
  have h2 : d.id.indexOf id < d.size.length := lt_of_lt_of_le h1 hlen
  rw [List.get?_eq_get h2]
  rfl

/-! ### Characterization of the stride loop -/

theorem stridesGo_append_single (info : List (String × DimInfo)) :
    ∀ (m : List String) (acc : List Nat) (s : Nat) (x : String),
      stridesGo info (m ++ [x]) acc s =
        (s * (m.map (szIn info)).prod) :: stridesGo info m acc s := by
  intro m
  induction m with
  | nil =>
    intro acc s x
    simp [stridesGo, szIn]
  | cons y m ih =>
    intro acc s x
    show stridesGo info (m ++ [x]) (s :: acc) (s * szIn info y) = _
    rw [ih]
    simp only [List.map_cons, List.prod_cons, stridesGo]
    rw [Nat.mul_assoc]
    rfl

theorem stridesGo_eq (info : List (String × DimInfo)) :
    ∀ (l : List String) (acc : List Nat) (s : Nat),
      stridesGo info l.reverse acc s =
        (stridesSpec (l.map (szIn info))).map (fun t => s * t) ++ acc := by
  intro l
  induction l with
  | nil =>
    intro acc s
    simp [stridesGo, stridesSpec]
  | cons x xs ih =>
    intro acc s
    rw [List.reverse_cons, stridesGo_append_single, ih]
    simp only [List.map_cons, stridesSpec, List.map_reverse, List.prod_reverse]
    rfl

theorem computeStrides_eq (d : JsonStatData α) (info : List (String × DimInfo))
    (hinfo : ∀ id ∈ d.id, dget info id = some (infoSpec d id)) :
    computeStrides d info = stridesSpec (sizesOf d) := by
  unfold computeStrides
  rw [stridesGo_eq]
  have hmap : d.id.map (szIn info) = sizesOf d := by
    apply List.map_congr_left
    intro id hid
    unfold szIn
    rw [hinfo id hid]
    rfl
  rw [hmap, List.append_nil]
  have : (fun t => 1 * t) = (id : Nat → Nat) := by
    funext t
    simp
  rw [this, List.map_id]

/-! ### Characterization of the record loop -/

theorem recFields_eq_fieldsFrom (d : JsonStatData α) (i : Nat) :
    recFields d i = fieldsFrom d 0 i := rfl

theorem dinsert_eq_append {κ ν : Type} [DecidableEq κ] {l : List (κ × ν)}
    {k : κ} (v : ν) (h : ∀ q ∈ l, q.1 ≠ k) : dinsert l k v = l ++ [(k, v)] := by
  unfold dinsert
  rw [if_neg]
  simp only [List.any_eq_true, decide_eq_true_eq, not_exists, not_and]
  intro q hq
  exact fun hc => (h q hq) hc

theorem decodeDimsGo_cons (d : JsonStatData α) (info : List (String × DimInfo))
    (strides : List Nat) (j : Nat) (id : String) (rest : List (Nat × String))
    (r : Nat) (rec : Record α) {s : Nat}
    (hs : strides.get? j = some s) (hs0 : s ≠ 0)
    (hid : dget info id = some (infoSpec d id)) :
    decodeDimsGo info strides ((j, id) :: rest) r rec =
      decodeDimsGo info strides rest (r % s)
        (dinsert (dinsert rec (id ++ "_code") (.str (codeAt d id (r / s))))
          (id ++ "_label") (.str (labelAt d id (r / s)))) := by
  simp only [decodeDimsGo]
  rw [hs]
  simp only [if_neg hs0, hid]
  rfl

theorem decodeDimsGo_spec (d : JsonStatData α) (info : List (String × DimInfo))
    (hinfo : ∀ id ∈ d.id, dget info id = some (infoSpec d id))
    (hpos : ∀ s ∈ sizesOf d, 0 < s) (hnd : d.id.Nodup) :
    ∀ (suf : List String) (j r : Nat) (rec : Record α),
      d.id.drop j = suf →
      (∀ q ∈ rec, ∀ id ∈ suf, q.1 ≠ id ++ "_code" ∧ q.1 ≠ id ++ "_label") →
      decodeDimsGo info (stridesSpec (sizesOf d)) (List.enumFrom j suf) r rec =
        .ok (rec ++ fieldsFrom d j r) := by
  intro suf
  induction suf with
  | nil =>
    intro j r rec hdrop _
    unfold fieldsFrom
    rw [hdrop]
    simp [decodeDimsGo, List.enumFrom]
  | cons id tl ih =>
    intro j r rec hdrop hfresh
    have hjlt : j < d.id.length := by
      by_contra hc
      push_neg at hc
      rw [List.drop_eq_nil_of_le hc] at hdrop
      exact List.cons_ne_nil _ _ hdrop.symm
    have hcons := List.drop_eq_getElem_cons hjlt
    rw [hdrop] at hcons
    have hget : id = d.id[j] := by
      have := List.cons.injEq id tl (d.id[j]) (d.id.drop (j + 1)) ▸ hcons
      exact this.1
    have htl : d.id.drop (j + 1) = tl := by
      have := List.cons.injEq id tl (d.id[j]) (d.id.drop (j + 1)) ▸ hcons
      exact this.2.symm
    have hidmem : id ∈ d.id := by
      rw [hget]
      exact List.getElem_mem hjlt
    have hLlen : (sizesOf d).length = d.id.length := List.length_map _ _
    have hsget : (stridesSpec (sizesOf d)).get? j =
        some (((sizesOf d).drop (j + 1)).prod) :=
      stridesSpec_get? (sizesOf d) j (by rw [hLlen]; exact hjlt)
    have hsj : 0 < ((sizesOf d).drop (j + 1)).prod :=
      prod_pos_of_forall_pos (fun s hs => hpos s (List.mem_of_mem_drop hs))
    have hndsuf : (id :: tl).Nodup := by
      rw [← hdrop]
      exact hnd.sublist (List.drop_sublist j d.id)
    have hidtl : id ∉ tl := (List.nodup_cons.mp hndsuf).1
    -- single step of the loop
    have hstep := decodeDimsGo_cons d info (stridesSpec (sizesOf d)) j id
      (List.enumFrom (j + 1) tl) r rec hsget (Nat.pos_iff_ne_zero.mp hsj)
      (hinfo id hidmem)
    have hfr1 : ∀ q ∈ rec, q.1 ≠ id ++ "_code" :=
      fun q hq => (hfresh q hq id (List.mem_cons_self _ _)).1
    have hfr2 : ∀ q ∈ rec, q.1 ≠ id ++ "_label" :=
      fun q hq => (hfresh q hq id (List.mem_cons_self _ _)).2
    set sj := ((sizesOf d).drop (j + 1)).prod with hsjdef
    set cfield : String × PyVal α :=
      (id ++ "_code", .str (codeAt d id (r / sj))) with hcf
    set lfield : String × PyVal α :=
      (id ++ "_label", .str (labelAt d id (r / sj))) with hlf
    have hins1 : dinsert rec (id ++ "_code") (.str (codeAt d id (r / sj))) =
        rec ++ [cfield] := dinsert_eq_append _ hfr1
    have hins2 : dinsert (rec ++ [cfield]) (id ++ "_label")
        (.str (labelAt d id (r / sj))) = rec ++ [cfield] ++ [lfield] := by
      apply dinsert_eq_append
      intro q hq
      rcases List.mem_append.mp hq with hq | hq
      · exact hfr2 q hq
      · rw [List.mem_singleton.mp hq, hcf]
        exact code_ne_label id id
    rw [List.enumFrom_cons, hstep, hins1, hins2]
    have hfresh3 : ∀ q ∈ rec ++ [cfield] ++ [lfield], ∀ id' ∈ tl,
        q.1 ≠ id' ++ "_code" ∧ q.1 ≠ id' ++ "_label" := by
      intro q hq id' hid'
      rcases List.mem_append.mp hq with hq | hq
      · rcases List.mem_append.mp hq with hq | hq
        · exact hfresh q hq id' (List.mem_cons_of_mem _ hid')
        · rw [List.mem_singleton.mp hq, hcf]
          constructor
          · intro hc
            exact hidtl (append_code_inj hc ▸ hid')
          · exact code_ne_label id id'
      · rw [List.mem_singleton.mp hq, hlf]
        constructor
        · exact (code_ne_label id' id).symm
        · intro hc
          exact hidtl (append_label_inj hc ▸ hid')
    rw [ih (j + 1) (r % sj) (rec ++ [cfield] ++ [lfield]) htl hfresh3]
    -- reassemble the field list
    have hsdrop1 : (sizesOf d).drop (j + 1) = tl.map (sizeOfDim d) := by
      unfold sizesOf
      rw [← List.map_drop, htl]
    have hsdrop : (sizesOf d).drop j = sizeOfDim d id :: tl.map (sizeOfDim d) := by
      unfold sizesOf
      rw [← List.map_drop, hdrop, List.map_cons]
    have hfields : fieldsFrom d j r =
        cfield :: lfield :: fieldsFrom d (j + 1) (r % sj) := by
      unfold fieldsFrom
      rw [hdrop, htl, hsdrop, hsdrop1]
      rw [digitsSpec]
      rw [List.zip_cons_cons, List.flatMap_cons]
      rw [hcf, hlf, hsjdef, hsdrop1]
      rfl
    rw [hfields]
    simp

theorem parseValuesGo_spec (d : JsonStatData α) (info : List (String × DimInfo))
    (hinfo : ∀ id ∈ d.id, dget info id = some (infoSpec d id))
    (hpos : ∀ s ∈ sizesOf d, 0 < s) (hnd : d.id.Nodup) :
    ∀ (vs : List (Option α)) (i0 : Nat) (accR : List (Record α)),
      parseValuesGo d info (stridesSpec (sizesOf d))
          (List.enumFrom i0 vs) accR =
        .ok (accR ++
          (List.enumFrom i0 vs).filterMap (fun p => p.2.map (recAt d p.1))) := by
  intro vs
  induction vs with
  | nil =>
    intro i0 accR
    simp [parseValuesGo, List.enumFrom]
  | cons ov vs ih =>
    intro i0 accR
    rw [List.enumFrom_cons]
    cases ov with
    | none =>
      rw [show parseValuesGo d info (stridesSpec (sizesOf d))
          ((i0, none) :: List.enumFrom (i0 + 1) vs) accR =
        parseValuesGo d info (stridesSpec (sizesOf d))
          (List.enumFrom (i0 + 1) vs) accR from rfl]
      rw [ih]
      simp [List.filterMap_cons]
    | some v =>
      have hfresh : ∀ q ∈ ([("value", PyVal.num v)] : Record α),
          ∀ id ∈ d.id, q.1 ≠ id ++ "_code" ∧ q.1 ≠ id ++ "_label" := by
        intro q hq id _
        rw [List.mem_singleton.mp hq]
        exact ⟨value_ne_code id, value_ne_label id⟩
      have hdec := decodeDimsGo_spec d info hinfo hpos hnd d.id 0 i0
        [("value", .num v)] rfl hfresh
      have hstep : parseValuesGo d info (stridesSpec (sizesOf d))
          ((i0, some v) :: List.enumFrom (i0 + 1) vs) accR =
          (decodeDimsGo info (stridesSpec (sizesOf d)) d.id.enum i0
              [("value", .num v)]).bind
            (fun r => parseValuesGo d info (stridesSpec (sizesOf d))
              (List.enumFrom (i0 + 1) vs) (accR ++ [r])) := rfl
      rw [hstep]
      have henum : d.id.enum = List.enumFrom 0 d.id := rfl
      rw [henum, hdec, Except.bind, ih]
      have hrec : ([("value", PyVal.num v)] : Record α) ++ fieldsFrom d 0 i0 =
          recAt d i0 v := by
        rw [← recFields_eq_fieldsFrom]
        rfl
      rw [hrec]
      simp [List.filterMap_cons, recAt]

/-- Structural description of the fertility-variant decoder: under the
implicit well-formedness every real JSON-stat response satisfies (a nonempty
dimension dict, one size per dimension, positive sizes, distinct dimension
ids), `parse_json_stat` succeeds and produces exactly `parseSpec`. -/
theorem parse_json_stat_eq (d : JsonStatData α) (hdim : d.dimension ≠ [])
    (hlen : d.id.length ≤ d.size.length)
    (hpos : ∀ id ∈ d.id, 0 < sizeOfDim d id) (hnd : d.id.Nodup) :
    parse_json_stat d = .ok (parseSpec d) := by
  by_cases hv : d.value = []
  · unfold parse_json_stat
    rw [if_pos (Or.inr (by rw [hv]; rfl))]
    unfold parseSpec
    rw [hv]
    rfl
  · have hpos' : ∀ s ∈ sizesOf d, 0 < s := by
      intro s hs
      obtain ⟨id, hid, h⟩ := List.mem_map.mp hs
      rw [← h]
      exact hpos id hid
    obtain ⟨info, hbuild, hspec⟩ := buildDimInfo_spec d (size_get_isSome_of_le d hlen)
    have hinfo : ∀ id ∈ d.id, dget info id = some (infoSpec d id) := by
      intro id hid
      rw [hspec id, if_pos hid]
    unfold parse_json_stat
    rw [if_neg]
    · show (buildDimInfo d).bind _ = _
      rw [hbuild, Except.bind]
      rw [computeStrides_eq d info hinfo]
      have henum : d.value.enum = List.enumFrom 0 d.value := rfl
      rw [henum, parseValuesGo_spec d info hinfo hpos' hnd d.value 0 []]
      unfold parseSpec
      rw [henum, List.nil_append]
    · intro hor
      rcases hor with h | h
      · exact hdim (List.isEmpty_iff.mp h)
      · exact hv (List.isEmpty_iff.mp h)

end Fertility

/-! ### Record counting -/

theorem length_filterMap_enumFrom (d : JsonStatData α) :
    ∀ (vs : List (Option α)) (i0 : Nat),
      ((List.enumFrom i0 vs).filterMap
          (fun p => p.2.map (recAt d p.1))).length =
        (vs.filter Option.isSome).length := by
  intro vs
  induction vs with
  | nil => intro i0; rfl
  | cons ov vs ih =>
    intro i0
    rw [List.enumFrom_cons, List.filterMap_cons]
    cases ov with
    | none => simp [ih, List.filter_cons]
    | some v => simp [ih, List.filter_cons]

theorem length_parseSpec (d : JsonStatData α) :
    (parseSpec d).length = (d.value.filter Option.isSome).length := by
  unfold parseSpec
  rw [show d.value.enum = List.enumFrom 0 d.value from rfl]
  exact length_filterMap_enumFrom d d.value 0

theorem filter_some_none_length (vs : List (Option α)) :
    (vs.filter Option.isSome).length + (vs.filter Option.isNone).length =
      vs.length := by
  induction vs with
  | nil => rfl
  | cons ov vs ih =>
    cases ov with
    | none =>
      simp only [List.filter_cons]
      simp
      omega
    | some v =>
      simp only [List.filter_cons]
      simp
      omega

/-! ### Mixed-radix arithmetic -/

theorem digitsSpec_lt (L : List Nat) (hL : ∀ s ∈ L, 0 < s) :
    ∀ i, i < L.prod → List.Forall₂ (· < ·) (digitsSpec L i) L := by
  induction L with
  | nil => intro i _; exact List.Forall₂.nil
  | cons s rest ih =>
    intro i hi
    have hpr : 0 < rest.prod :=
      prod_pos_of_forall_pos (fun t ht => hL t (List.mem_cons_of_mem _ ht))
    rw [List.prod_cons] at hi
    refine List.Forall₂.cons ?_ ?_
    · exact (Nat.div_lt_iff_lt_mul hpr).mpr (by rw [Nat.mul_comm] at hi ⊢; exact hi)
    · exact ih (fun t ht => hL t (List.mem_cons_of_mem _ ht)) _
        (Nat.mod_lt _ hpr)

theorem recompose_digitsSpec (L : List Nat) (hL : ∀ s ∈ L, 0 < s) :
    ∀ i, i < L.prod → recompose L (digitsSpec L i) = i := by
  induction L with
  | nil =>
    intro i hi
    rw [List.prod_nil] at hi
    interval_cases i
    rfl
  | cons s rest ih =>
    intro i hi
    have hpr : 0 < rest.prod :=
      prod_pos_of_forall_pos (fun t ht => hL t (List.mem_cons_of_mem _ ht))
    show i / rest.prod * rest.prod +
      recompose rest (digitsSpec rest (i % rest.prod)) = i
    rw [ih (fun t ht => hL t (List.mem_cons_of_mem _ ht)) _ (Nat.mod_lt _ hpr)]
    rw [Nat.mul_comm]
    exact Nat.div_add_mod i rest.prod

theorem digitsSpec_inj (L : List Nat) (hL : ∀ s ∈ L, 0 < s) {i1 i2 : Nat}
    (h1 : i1 < L.prod) (h2 : i2 < L.prod)
    (h : digitsSpec L i1 = digitsSpec L i2) : i1 = i2 := by
  rw [← recompose_digitsSpec L hL i1 h1, ← recompose_digitsSpec L hL i2 h2, h]

theorem pos_of_forall₂_lt {ks L : List Nat}
    (h : List.Forall₂ (· < ·) ks L) : ∀ s ∈ L, 0 < s := by
  induction h with
  | nil => intro s hs; simp at hs
  | cons hk _ ih =>
    intro s hs
    rcases List.mem_cons.mp hs with hs | hs
    · subst hs; omega
    · exact ih s hs

theorem recompose_lt {ks L : List Nat} (h : List.Forall₂ (· < ·) ks L) :
    recompose L ks < L.prod := by
  induction h with
  | nil => simp [recompose]
  | @cons k s ks rest hk htl ih =>
    show k * rest.prod + recompose rest ks < (s :: rest).prod
    rw [List.prod_cons]
    have hpr : 0 < rest.prod := prod_pos_of_forall_pos (pos_of_forall₂_lt htl)
    calc k * rest.prod + recompose rest ks
        < k * rest.prod + rest.prod := by omega
      _ = (k + 1) * rest.prod := by ring
      _ ≤ s * rest.prod := Nat.mul_le_mul_right _ hk

theorem digitsSpec_recompose {ks L : List Nat}
    (h : List.Forall₂ (· < ·) ks L) : digitsSpec L (recompose L ks) = ks := by
  induction h with
  | nil => rfl
  | @cons k s ks rest hk htl ih =>
    have hpr : 0 < rest.prod := prod_pos_of_forall_pos (pos_of_forall₂_lt htl)
    have hrlt : recompose rest ks < rest.prod := recompose_lt htl
    show (k * rest.prod + recompose rest ks) / rest.prod ::
        digitsSpec rest ((k * rest.prod + recompose rest ks) % rest.prod) =
      k :: ks
    have hdiv : (k * rest.prod + recompose rest ks) / rest.prod = k := by
      rw [Nat.mul_comm k rest.prod, Nat.mul_add_div hpr,
        Nat.div_eq_of_lt hrlt]
      omega
    have hmod : (k * rest.prod + recompose rest ks) % rest.prod =
        recompose rest ks := by
      rw [Nat.mul_comm k rest.prod, Nat.mul_add_mod, Nat.mod_eq_of_lt hrlt]
    rw [hdiv, hmod, ih]

/-! ### Reverse-index injectivity -/

theorem keys_nodup_unique {κ ν : Type} [DecidableEq κ] :
    ∀ {l : List (κ × ν)}, (l.map Prod.fst).Nodup →
      ∀ {a : κ} {b1 b2 : ν}, (a, b1) ∈ l → (a, b2) ∈ l → b1 = b2 := by
  intro l
  induction l with
  | nil => intro _ a b1 b2 h1 _; simp at h1
  | cons p l ih =>
    intro hnd a b1 b2 h1 h2
    rw [List.map_cons, List.nodup_cons] at hnd
    rcases List.mem_cons.mp h1 with h1 | h1 <;>
      rcases List.mem_cons.mp h2 with h2 | h2
    · rw [← h1] at h2
      exact (Prod.mk.injEq _ _ _ _ ▸ h2).2.symm
    · exfalso
      apply hnd.1
      have hmem : a ∈ l.map Prod.fst := List.mem_map_of_mem Prod.fst h2
      rw [← h1]
      exact hmem
    · exfalso
      apply hnd.1
      have hmem : a ∈ l.map Prod.fst := List.mem_map_of_mem Prod.fst h1
      rw [← h2]
      exact hmem
    · exact ih hnd.2 h1 h2

theorem revIndex_inj (d : JsonStatData α) (dim_id : String)
    (hidx : ((catOf d dim_id).index.map Prod.fst).Nodup) {k1 k2 : Nat}
    {c : String} (h1 : dget (revIndexOf d dim_id) k1 = some c)
    (h2 : dget (revIndexOf d dim_id) k2 = some c) : k1 = k2 := by
  have m1 := dget_mem h1
  have m2 := dget_mem h2
  unfold revIndexOf at m1 m2
  obtain ⟨q1, hq1, he1⟩ := List.mem_map.mp m1
  obtain ⟨q2, hq2, he2⟩ := List.mem_map.mp m2
  have e1 : q1 = (c, k1) := by
    cases q1
    cases he1
    rfl
  have e2 : q2 = (c, k2) := by
    cases q2
    cases he2
    rfl
  rw [e1] at hq1
  rw [e2] at hq2
  exact keys_nodup_unique hidx hq1 hq2

/-- For in-range indices with a complete, duplicate-free index map, the
emitted code determines the category index. -/
theorem codeAt_inj (d : JsonStatData α) (dim_id : String)
    (hidx : ((catOf d dim_id).index.map Prod.fst).Nodup)
    {k1 k2 : Nat}
    (hc1 : (dget (revIndexOf d dim_id) k1).isSome)
    (hc2 : (dget (revIndexOf d dim_id) k2).isSome)
    (h : codeAt d dim_id k1 = codeAt d dim_id k2) : k1 = k2 := by
  obtain ⟨c1, e1⟩ := Option.isSome_iff_exists.mp hc1
  obtain ⟨c2, e2⟩ := Option.isSome_iff_exists.mp hc2
  unfold codeAt at h
  rw [e1, e2] at h
  simp only [Option.getD_some] at h
  subst h
  exact revIndex_inj d dim_id hidx e1 e2

/-! ### Field lookups inside an emitted record -/

theorem dget_flat_code_none (d : JsonStatData α) (pairs : List (String × Nat))
    {a : String} (h : ∀ p ∈ pairs, p.1 ≠ a) :
    dget (pairs.flatMap (fun p =>
      ([(p.1 ++ "_code", PyVal.str (codeAt d p.1 p.2)),
        (p.1 ++ "_label", PyVal.str (labelAt d p.1 p.2))] :
        List (String × PyVal α)))) (a ++ "_code") =
      none := by
  apply dget_eq_none_of_forall_ne
  intro q hq
  obtain ⟨p, hp, hq2⟩ := List.mem_flatMap.mp hq
  rcases List.mem_cons.mp hq2 with h2 | h2
  · rw [h2]
    intro hc
    exact h p hp (append_code_inj hc)
  · rw [List.mem_singleton.mp h2]
    exact Ne.symm (code_ne_label a p.1)

theorem dget_flat_label_none (d : JsonStatData α) (pairs : List (String × Nat))
    {a : String} (h : ∀ p ∈ pairs, p.1 ≠ a) :
    dget (pairs.flatMap (fun p =>
      ([(p.1 ++ "_code", PyVal.str (codeAt d p.1 p.2)),
        (p.1 ++ "_label", PyVal.str (labelAt d p.1 p.2))] :
        List (String × PyVal α)))) (a ++ "_label") =
      none := by
  apply dget_eq_none_of_forall_ne
  intro q hq
  obtain ⟨p, hp, hq2⟩ := List.mem_flatMap.mp hq
  rcases List.mem_cons.mp hq2 with h2 | h2
  · rw [h2]
    exact code_ne_label p.1 a
  · rw [List.mem_singleton.mp h2]
    intro hc
    exact h p hp (append_label_inj hc)

theorem dget_flat_value_none (d : JsonStatData α)
    (pairs : List (String × Nat)) :
    dget (pairs.flatMap (fun p =>
      ([(p.1 ++ "_code", PyVal.str (codeAt d p.1 p.2)),
        (p.1 ++ "_label", PyVal.str (labelAt d p.1 p.2))] :
        List (String × PyVal α)))) "value" = none := by
  apply dget_eq_none_of_forall_ne
  intro q hq
  obtain ⟨p, hp, hq2⟩ := List.mem_flatMap.mp hq
  rcases List.mem_cons.mp hq2 with h2 | h2
  · rw [h2]
    exact Ne.symm (value_ne_code p.1)
  · rw [List.mem_singleton.mp h2]
    exact Ne.symm (value_ne_label p.1)

theorem dget_flat_code (d : JsonStatData α) :
    ∀ (pairs : List (String × Nat)), (pairs.map Prod.fst).Nodup →
      ∀ {a : String} {k : Nat}, (a, k) ∈ pairs →
        dget (pairs.flatMap (fun p =>
          ([(p.1 ++ "_code", PyVal.str (codeAt d p.1 p.2)),
            (p.1 ++ "_label", PyVal.str (labelAt d p.1 p.2))] :
            List (String × PyVal α)))) (a ++ "_code") =
          some (.str (codeAt d a k)) := by
  intro pairs
  induction pairs with
  | nil => intro _ a k h; simp at h
  | cons p rest ih =>
    intro hnd a k hmem
    rw [List.map_cons, List.nodup_cons] at hnd
    rw [List.flatMap_cons]
    simp only [List.cons_append, List.nil_append]
    rcases List.mem_cons.mp hmem with h | h
    · have hpa : p.1 = a := by rw [← h]
      have hrest : dget (rest.flatMap (fun p =>
          ([(p.1 ++ "_code", PyVal.str (codeAt d p.1 p.2)),
            (p.1 ++ "_label", PyVal.str (labelAt d p.1 p.2))] :
            List (String × PyVal α))))
          (a ++ "_code") = none := by
        apply dget_flat_code_none
        intro q hq hqa
        apply hnd.1
        rw [hpa, ← hqa]
        exact List.mem_map_of_mem Prod.fst hq
      rw [dget_cons, dget_cons, hrest]
      have hlab : ¬(p.1 ++ "_label" = a ++ "_code") :=
        Ne.symm (code_ne_label a p.1)
      simp only [if_neg hlab]
      have hcode : p.1 ++ "_code" = a ++ "_code" := by rw [hpa]
      simp only [if_pos hcode]
      have : p.2 = k := by rw [← h]
      rw [hpa, this]
    · exact dget_cons_some (dget_cons_some (ih hnd.2 h))

theorem dget_flat_label (d : JsonStatData α) :
    ∀ (pairs : List (String × Nat)), (pairs.map Prod.fst).Nodup →
      ∀ {a : String} {k : Nat}, (a, k) ∈ pairs →
        dget (pairs.flatMap (fun p =>
          ([(p.1 ++ "_code", PyVal.str (codeAt d p.1 p.2)),
            (p.1 ++ "_label", PyVal.str (labelAt d p.1 p.2))] :
            List (String × PyVal α)))) (a ++ "_label") =
          some (.str (labelAt d a k)) := by
  intro pairs
  induction pairs with
  | nil => intro _ a k h; simp at h
  | cons p rest ih =>
    intro hnd a k hmem
    rw [List.map_cons, List.nodup_cons] at hnd
    rw [List.flatMap_cons]
    simp only [List.cons_append, List.nil_append]
    rcases List.mem_cons.mp hmem with h | h
    · have hpa : p.1 = a := by rw [← h]
      have hrest : dget (rest.flatMap (fun p =>
          ([(p.1 ++ "_code", PyVal.str (codeAt d p.1 p.2)),
            (p.1 ++ "_label", PyVal.str (labelAt d p.1 p.2))] :
            List (String × PyVal α))))
          (a ++ "_label") = none := by
        apply dget_flat_label_none
        intro q hq hqa
        apply hnd.1
        rw [hpa, ← hqa]
        exact List.mem_map_of_mem Prod.fst hq
      rw [dget_cons, dget_cons, hrest]
      have hlab : p.1 ++ "_label" = a ++ "_label" := by rw [hpa]
      simp only [if_pos hlab]
      have : p.2 = k := by rw [← h]
      rw [hpa, this]
    · exact dget_cons_some (dget_cons_some (ih hnd.2 h))

theorem length_sizesOf (d : JsonStatData α) :
    (sizesOf d).length = d.id.length := List.length_map _ _

theorem zip_digits_keys_nodup (d : JsonStatData α) (hnd : d.id.Nodup)
    (i : Nat) :
    ((d.id.zip (digitsSpec (sizesOf d) i)).map Prod.fst).Nodup := by
  rw [List.map_fst_zip]
  · exact hnd
  · rw [length_digitsSpec, length_sizesOf]

theorem zip_digit_mem (d : JsonStatData α) (i : Nat) {a : String}
    (ha : a ∈ d.id) :
    (a, digitOf d a i) ∈ d.id.zip (digitsSpec (sizesOf d) i) := by
  have hj : d.id.indexOf a < d.id.length := List.indexOf_lt_length.mpr ha
  have hjd : d.id.indexOf a < (digitsSpec (sizesOf d) i).length := by
    rw [length_digitsSpec, length_sizesOf]
    exact hj
  have hjz : d.id.indexOf a < (d.id.zip (digitsSpec (sizesOf d) i)).length := by
    rw [List.length_zip]
    omega
  have hz : (d.id.zip (digitsSpec (sizesOf d) i))[d.id.indexOf a] =
      (d.id[d.id.indexOf a], (digitsSpec (sizesOf d) i)[d.id.indexOf a]) :=
    List.getElem_zip
  have hga : d.id[d.id.indexOf a] = a := List.getElem_indexOf hj
  have hdig : digitOf d a i = (digitsSpec (sizesOf d) i)[d.id.indexOf a] := by
    unfold digitOf
    rw [List.getD_eq_getD_get?, List.get?_eq_get hjd]
    rfl
  have := List.getElem_mem hjz
  rw [hz, hga, ← hdig] at this
  exact this

theorem dget_recAt_value (d : JsonStatData α) (i : Nat) (v : α) :
    dget (recAt d i v) "value" = some (.num v) := by
  unfold recAt recFields
  rw [dget_cons, dget_flat_value_none]
  simp

theorem dget_recAt_code (d : JsonStatData α) (hnd : d.id.Nodup) (i : Nat)
    (v : α) {a : String} (ha : a ∈ d.id) :
    dget (recAt d i v) (a ++ "_code") =
      some (.str (codeAt d a (digitOf d a i))) := by
  unfold recAt recFields
  exact dget_cons_some
    (dget_flat_code d _ (zip_digits_keys_nodup d hnd i) (zip_digit_mem d i ha))

theorem dget_recAt_label (d : JsonStatData α) (hnd : d.id.Nodup) (i : Nat)
    (v : α) {a : String} (ha : a ∈ d.id) :
    dget (recAt d i v) (a ++ "_label") =
      some (.str (labelAt d a (digitOf d a i))) := by
  unfold recAt recFields
  exact dget_cons_some
    (dget_flat_label d _ (zip_digits_keys_nodup d hnd i) (zip_digit_mem d i ha))

theorem digitOf_getElem (d : JsonStatData α) (hnd : d.id.Nodup) (i : Nat)
    (j : Nat) (hj : j < d.id.length)
    (hjd : j < (digitsSpec (sizesOf d) i).length) :
    digitOf d (d.id[j]) i = (digitsSpec (sizesOf d) i)[j] := by
  have hidx : d.id.indexOf (d.id[j]) = j := by
    have h1 : d.id[j] ∈ d.id := List.getElem_mem hj
    have h2 : d.id.indexOf d.id[j] < d.id.length := List.indexOf_lt_length.mpr h1
    have h3 : d.id[d.id.indexOf d.id[j]] = d.id[j] := List.getElem_indexOf h2
    exact (List.Nodup.getElem_inj_iff hnd).mp h3
  unfold digitOf
  rw [hidx, List.getD_eq_getD_get?, List.get?_eq_get hjd]
  rfl

/-- The per-dimension code-field values of an emitted record, read back by
dict lookup, are exactly the code list of its flat index. -/
theorem descriptor_recAt (d : JsonStatData α) (hnd : d.id.Nodup) (i : Nat)
    (v : α) :
    d.id.map (fun id => dget (recAt d i v) (id ++ "_code")) =
      (codesAt d i).map (fun c => some (PyVal.str c)) := by
  have hlhs : d.id.map (fun id => dget (recAt d i v) (id ++ "_code")) =
      d.id.map (fun id => some (PyVal.str (codeAt d id (digitOf d id i)))) := by
    apply List.map_congr_left
    intro id hid
    exact dget_recAt_code d hnd i v hid
  rw [hlhs]
  unfold codesAt
  rw [List.map_map]
  apply List.ext_getElem
  · rw [List.length_map, List.length_map, List.length_zip,
      length_digitsSpec, length_sizesOf]
    omega
  · intro j hj1 hj2
    have hjid : j < d.id.length := by
      rw [List.length_map] at hj1
      exact hj1
    have hjz : j < (d.id.zip (digitsSpec (sizesOf d) i)).length := by
      rw [List.length_map] at hj2
      exact hj2
    rw [List.getElem_map, List.getElem_map]
    have hjd : j < (digitsSpec (sizesOf d) i).length := by
      rw [length_digitsSpec, length_sizesOf]
      exact hjid
    have hz : (d.id.zip (digitsSpec (sizesOf d) i))[j] =
        (d.id[j], (digitsSpec (sizesOf d) i)[j]) := List.getElem_zip
    rw [hz]
    show some (PyVal.str (codeAt d (d.id[j]) (digitOf d (d.id[j]) i))) = _
    rw [digitOf_getElem d hnd i j hjid hjd]
    rfl

/-! ### Injectivity of the code combination -/

theorem codesAt_inj (d : JsonStatData α)
    (hpos : ∀ s ∈ sizesOf d, 0 < s)
    (hcomplete : ∀ id ∈ d.id, ∀ k, k < sizeOfDim d id →
      (dget (revIndexOf d id) k).isSome)
    (hidx : ∀ id ∈ d.id, ((catOf d id).index.map Prod.fst).Nodup)
    {i1 i2 : Nat} (h1 : i1 < (sizesOf d).prod) (h2 : i2 < (sizesOf d).prod)
    (h : codesAt d i1 = codesAt d i2) : i1 = i2 := by
  apply digitsSpec_inj (sizesOf d) hpos h1 h2
  have hf1 := digitsSpec_lt (sizesOf d) hpos i1 h1
  have hf2 := digitsSpec_lt (sizesOf d) hpos i2 h2
  apply List.ext_getElem
  · rw [length_digitsSpec, length_digitsSpec]
  · intro j hj1 hj2
    have hjid : j < d.id.length := by
      rw [length_digitsSpec, length_sizesOf] at hj1
      exact hj1
    have hjs : j < (sizesOf d).length := by rw [length_sizesOf]; exact hjid
    have hk1 : (digitsSpec (sizesOf d) i1)[j] < (sizesOf d)[j] :=
      List.forall₂_iff_get.mp hf1 |>.2 j hj1 hjs
    have hk2 : (digitsSpec (sizesOf d) i2)[j] < (sizesOf d)[j] :=
      List.forall₂_iff_get.mp hf2 |>.2 j hj2 hjs
    have hsz : (sizesOf d)[j] = sizeOfDim d (d.id[j]) := by
      unfold sizesOf
      rw [List.getElem_map]
    have hidmem : d.id[j] ∈ d.id := List.getElem_mem hjid
    -- the code equality at position j
    have hcj : codeAt d (d.id[j]) ((digitsSpec (sizesOf d) i1)[j]) =
        codeAt d (d.id[j]) ((digitsSpec (sizesOf d) i2)[j]) := by
      have hcg := congrArg (fun l => l.get? j) h
      unfold codesAt at hcg
      simp only [List.get?_eq_getElem?] at hcg
      have hjz1 : j < (d.id.zip (digitsSpec (sizesOf d) i1)).length := by
        rw [List.length_zip, length_digitsSpec, length_sizesOf]
        omega
      have hjz2 : j < (d.id.zip (digitsSpec (sizesOf d) i2)).length := by
        rw [List.length_zip, length_digitsSpec, length_sizesOf]
        omega
      rw [List.getElem?_map, List.getElem?_map,
        List.getElem?_eq_getElem hjz1, List.getElem?_eq_getElem hjz2] at hcg
      have hz1 : (d.id.zip (digitsSpec (sizesOf d) i1))[j] =
          (d.id[j], (digitsSpec (sizesOf d) i1)[j]) := List.getElem_zip
      have hz2 : (d.id.zip (digitsSpec (sizesOf d) i2))[j] =
          (d.id[j], (digitsSpec (sizesOf d) i2)[j]) := List.getElem_zip
      rw [hz1, hz2] at hcg
      exact Option.some.inj hcg
    exact codeAt_inj d (d.id[j]) (hidx _ hidmem)
      (hcomplete _ hidmem _ (hsz ▸ hk1)) (hcomplete _ hidmem _ (hsz ▸ hk2)) hcj

theorem recCodes_recAt (d : JsonStatData α) (hnd : d.id.Nodup) (i : Nat)
    (v : α) : recCodes d (recAt d i v) = codesDescr d i :=
  descriptor_recAt d hnd i v

theorem codesDescr_inj (d : JsonStatData α)
    (hpos : ∀ s ∈ sizesOf d, 0 < s)
    (hcomplete : ∀ id ∈ d.id, ∀ k, k < sizeOfDim d id →
      (dget (revIndexOf d id) k).isSome)
    (hidx : ∀ id ∈ d.id, ((catOf d id).index.map Prod.fst).Nodup)
    {t1 t2 : Nat} (h1 : t1 < (sizesOf d).prod) (h2 : t2 < (sizesOf d).prod)
    (h : codesDescr d t1 = codesDescr d t2) : t1 = t2 := by
  apply codesAt_inj d hpos hcomplete hidx h1 h2
  have hinj : Function.Injective
      (fun c : String => (some (PyVal.str c) : Option (PyVal α))) := by
    intro a b hab
    have := Option.some.inj hab
    simpa using this
  exact List.map_injective_iff.mpr hinj h

theorem filter_descr_none (d : JsonStatData α) [DecidableEq α]
    (hnd : d.id.Nodup) (hpos : ∀ s ∈ sizesOf d, 0 < s)
    (hcomplete : ∀ id ∈ d.id, ∀ k, k < sizeOfDim d id →
      (dget (revIndexOf d id) k).isSome)
    (hidx : ∀ id ∈ d.id, ((catOf d id).index.map Prod.fst).Nodup) :
    ∀ (vs : List (Option α)) (i0 : Nat),
      i0 + vs.length ≤ (sizesOf d).prod →
      ∀ i, i < i0 →
        ((List.enumFrom i0 vs).filterMap
            (fun p => p.2.map (recAt d p.1))).filter
          (fun r => recCodes d r = codesDescr d i) = [] := by
  intro vs
  induction vs with
  | nil => intro i0 _ i _; rfl
  | cons ov vs ih =>
    intro i0 hN i hi
    simp only [List.length_cons] at hN
    rw [List.enumFrom_cons, List.filterMap_cons]
    cases ov with
    | none => exact ih (i0 + 1) (by omega) i (by omega)
    | some v =>
      simp only [Option.map_some']
      rw [List.filter_cons, if_neg]
      · exact ih (i0 + 1) (by omega) i (by omega)
      · simp only [decide_eq_true_eq]
        rw [recCodes_recAt d hnd i0 v]
        intro hc
        have := codesDescr_inj d hpos hcomplete hidx (by omega) (by omega) hc
        omega

theorem filter_descr_single (d : JsonStatData α) [DecidableEq α]
    (hnd : d.id.Nodup) (hpos : ∀ s ∈ sizesOf d, 0 < s)
    (hcomplete : ∀ id ∈ d.id, ∀ k, k < sizeOfDim d id →
      (dget (revIndexOf d id) k).isSome)
    (hidx : ∀ id ∈ d.id, ((catOf d id).index.map Prod.fst).Nodup) :
    ∀ (vs : List (Option α)) (i0 : Nat),
      i0 + vs.length ≤ (sizesOf d).prod →
      ∀ i v, i0 ≤ i → vs.get? (i - i0) = some (some v) →
        ((List.enumFrom i0 vs).filterMap
            (fun p => p.2.map (recAt d p.1))).filter
          (fun r => recCodes d r = codesDescr d i) = [recAt d i v] := by
  intro vs
  induction vs with
  | nil => intro i0 _ i v _ hg; simp at hg
  | cons ov vs ih =>
    intro i0 hN i v hle hg
    simp only [List.length_cons] at hN
    rw [List.enumFrom_cons, List.filterMap_cons]
    by_cases hii : i = i0
    · subst hii
      rw [Nat.sub_self] at hg
      have hov : ov = some v := Option.some.inj hg
      subst hov
      simp only [Option.map_some']
      rw [List.filter_cons, if_pos]
      · rw [filter_descr_none d hnd hpos hcomplete hidx vs (i + 1)
          (by omega) i (by omega)]
      · simp only [decide_eq_true_eq]
        exact recCodes_recAt d hnd i v
    · have hlt : i0 < i := lt_of_le_of_ne hle (Ne.symm hii)
      have hk : i - i0 = (i - (i0 + 1)) + 1 := by omega
      rw [hk] at hg
      have hg' : vs.get? (i - (i0 + 1)) = some (some v) := hg
      have hbound : i - (i0 + 1) < vs.length := by
        rcases List.get?_eq_some.mp hg' with ⟨hb, _⟩
        exact hb
      cases ov with
      | none => exact ih (i0 + 1) (by omega) i v (by omega) hg'
      | some w =>
        simp only [Option.map_some']
        rw [List.filter_cons, if_neg]
        · exact ih (i0 + 1) (by omega) i v (by omega) hg'
        · simp only [decide_eq_true_eq]
          rw [recCodes_recAt d hnd i0 w]
          intro hc
          have := codesDescr_inj d hpos hcomplete hidx (by omega) (by omega) hc
          omega

theorem nodup_descr_aux (d : JsonStatData α)
    (hpos : ∀ s ∈ sizesOf d, 0 < s)
    (hcomplete : ∀ id ∈ d.id, ∀ k, k < sizeOfDim d id →
      (dget (revIndexOf d id) k).isSome)
    (hidx : ∀ id ∈ d.id, ((catOf d id).index.map Prod.fst).Nodup) :
    ∀ (vs : List (Option α)) (i0 : Nat),
      i0 + vs.length ≤ (sizesOf d).prod →
      ((List.enumFrom i0 vs).filterMap
        (fun p => p.2.map (fun _ => codesDescr d p.1))).Nodup := by
  intro vs
  induction vs with
  | nil => intro i0 _; exact List.nodup_nil
  | cons ov vs ih =>
    intro i0 hN
    simp only [List.length_cons] at hN
    rw [List.enumFrom_cons, List.filterMap_cons]
    cases ov with
    | none => exact ih (i0 + 1) (by omega)
    | some v =>
      simp only [Option.map_some']
      refine List.Nodup.cons ?_ (ih (i0 + 1) (by omega))
      intro hmem
      obtain ⟨q, hq, heq⟩ := List.mem_filterMap.mp hmem
      have hq1 : i0 + 1 ≤ q.1 := List.le_fst_of_mem_enumFrom hq
      have hq2 : q.1 < (i0 + 1) + vs.length := List.fst_lt_add_of_mem_enumFrom hq
      have hxq : codesDescr d q.1 = codesDescr d i0 := by
        cases hq2v : q.2 with
        | none => rw [hq2v] at heq; simp at heq
        | some w =>
          rw [hq2v] at heq
          simp only [Option.map_some'] at heq
          exact Option.some.inj heq
      have := codesDescr_inj d hpos hcomplete hidx (by omega) (by omega) hxq
      omega

/-! ### Claim C3 -/

/-- C3: for a well-formed table (value-array length equal to the product of
the declared sizes, complete duplicate-free code indexes, positive sizes,
distinct dimension ids), the decoder succeeds; the emitted records carry
pairwise-distinct code combinations; there are as many records as non-null
cells; and filtering the output by the code combination of any non-null cell
yields exactly the one record holding that cell's value (re-grouping by the
`_code` fields reconstructs the table, with no duplication and no loss). -/
theorem C3_roundtrip {α : Type} [DecidableEq α] (d : JsonStatData α)
    (hdim : d.dimension ≠ []) (hlen : d.id.length ≤ d.size.length)
    (hpos : ∀ id ∈ d.id, 0 < sizeOfDim d id) (hnd : d.id.Nodup)
    (hwf : d.value.length = (sizesOf d).prod)
    (hcomplete : ∀ id ∈ d.id, ∀ k, k < sizeOfDim d id →
      (dget (revIndexOf d id) k).isSome)
    (hidx : ∀ id ∈ d.id, ((catOf d id).index.map Prod.fst).Nodup) :
    ∃ recs, Fertility.parse_json_stat d = .ok recs ∧
      (recs.map (recCodes d)).Nodup ∧
      recs.length = (d.value.filter Option.isSome).length ∧
      ∀ i v, d.value.get? i = some (some v) →
        recs.filter (fun r => recCodes d r = codesDescr d i) =
          [recAt d i v] := by
  have hpos' : ∀ s ∈ sizesOf d, 0 < s := by
    intro s hs
    obtain ⟨id, hid, h⟩ := List.mem_map.mp hs
    rw [← h]
    exact hpos id hid
  have henum : d.value.enum = List.enumFrom 0 d.value := rfl
  refine ⟨parseSpec d, Fertility.parse_json_stat_eq d hdim hlen hpos hnd, ?_,
    length_parseSpec d, ?_⟩
  · unfold parseSpec
    rw [henum, List.map_filterMap]
    have hcongr : ∀ p ∈ List.enumFrom 0 d.value,
        (p.2.map (recAt d p.1)).map (recCodes d) =
          p.2.map (fun _ => codesDescr d p.1) := by
      intro p _
      cases hp : p.2 with
      | none => rfl
      | some w =>
        simp only [Option.map_some']
        rw [recCodes_recAt d hnd p.1 w]
    rw [List.filterMap_congr hcongr]
    exact nodup_descr_aux d hpos' hcomplete hidx d.value 0 (by omega)
  · intro i v hget
    unfold parseSpec
    rw [henum]
    have hg0 : d.value.get? (i - 0) = some (some v) := by
      rw [Nat.sub_zero]
      exact hget
    exact filter_descr_single d hnd hpos' hcomplete hidx d.value 0 (by omega)
      i v (Nat.zero_le i) hg0

/-- Witness for C3, at the concrete two-dimensional table. -/
theorem C3_witness :
    exTable.dimension ≠ [] ∧
    (∃ recs, Fertility.parse_json_stat exTable = .ok recs ∧
      (recs.map (recCodes exTable)).Nodup ∧
      recs.length = (exTable.value.filter Option.isSome).length ∧
      ∀ i v, exTable.value.get? i = some (some v) →
        recs.filter (fun r => recCodes exTable r = codesDescr exTable i) =
          [recAt exTable i v]) :=
  ⟨by decide,
    C3_roundtrip exTable (by decide) (by decide) (by decide) (by decide)
      (by decide) (by decide) (by decide)⟩

theorem population_ne_label (a : String) : "population" ≠ a ++ "_label" := by
  intro h
  have hd := congrArg String.data h
  rw [String.data_append] at hd
  have h2 := congrArg List.getLast? hd
  rw [List.getLast?_append] at h2
  have hp : ("population" : String).data.getLast? = some 'n' := by decide
  have hl : ("_label" : String).data.getLast? = some 'l' := by decide
  rw [hp, hl] at h2
  simp [Option.or] at h2

namespace Population

variable {α : Type}

theorem buildInfoGoP_spec (d : JsonStatData α) :
    ∀ (todo : List String) (acc : List (String × DimInfo)),
      (∀ id ∈ todo, (dget d.dimension id).isSome) →
      (∀ id ∈ todo, (d.size.get? (d.id.indexOf id)).isSome) →
      ∃ res, buildInfoGo d todo acc = .ok res ∧
        ∀ k, dget res k =
          if k ∈ todo then some (Fertility.preInfoSpec d k) else dget acc k := by
  intro todo
  induction todo with
  | nil =>
    intro acc _ _
    exact ⟨acc, rfl, fun k => by simp⟩
  | cons id rest ih =>
    intro acc hm h
    obtain ⟨dim, hdim⟩ :=
      Option.isSome_iff_exists.mp (hm id (List.mem_cons_self _ _))
    obtain ⟨sz, hsz⟩ :=
      Option.isSome_iff_exists.mp (h id (List.mem_cons_self _ _))
    have hstep : buildInfoGo d (id :: rest) acc =
        buildInfoGo d rest (dinsert acc id (Fertility.preInfoSpec d id)) := by
      have hgd : sizeOfDim d id = sz := by
        unfold sizeOfDim
        rw [List.getD_eq_getD_get?, hsz]
        rfl
      simp only [buildInfoGo]
      rw [hdim, hsz]
      simp only [Fertility.preInfoSpec, catOf]
      rw [hdim, hgd]
      rfl
    rw [hstep]
    obtain ⟨res, hres, hspec⟩ :=
      ih (dinsert acc id (Fertility.preInfoSpec d id))
        (fun i hi => hm i (List.mem_cons_of_mem _ hi))
        (fun i hi => h i (List.mem_cons_of_mem _ hi))
    refine ⟨res, hres, fun k => ?_⟩
    rw [hspec k, dget_dinsert]
    by_cases hkr : k ∈ rest
    · simp [hkr]
    · by_cases hki : k = id
      · simp [hkr, hki]
      · simp [hkr, hki]

theorem buildDimInfoP_spec (d : JsonStatData α)
    (hm : ∀ id ∈ d.id, (dget d.dimension id).isSome)
    (h : ∀ id ∈ d.id, (d.size.get? (d.id.indexOf id)).isSome) :
    ∃ res, buildDimInfo d = .ok res ∧
      ∀ k, dget res k = if k ∈ d.id then some (infoSpec d k) else none := by
  obtain ⟨res, hres, hspec⟩ := buildInfoGoP_spec d d.id [] hm h
  refine ⟨Fertility.addReverse res, ?_, fun k => ?_⟩
  · unfold buildDimInfo
    rw [hres]
    rfl
  · unfold Fertility.addReverse
    rw [dget_map_values Fertility.reverseOne res k, hspec k]
    by_cases hk : k ∈ d.id
    · simp only [hk, if_pos rfl, Option.map_some']
      rfl
    · simp [hk, dget_nil]

theorem decodeDimsGoP_cons (d : JsonStatData α) (info : List (String × DimInfo))
    (strides : List Nat) (j : Nat) (id : String) (rest : List (Nat × String))
    (r : Nat) (rec : Record α) {s : Nat}
    (hs : strides.get? j = some s) (hs0 : s ≠ 0)
    (hid : dget info id = some (infoSpec d id)) :
    decodeDimsGo info strides ((j, id) :: rest) r rec =
      decodeDimsGo info strides rest (r % s)
        (dinsert (dinsert rec id (.str (codeAt d id (r / s))))
          (id ++ "_label") (.str (labelAt d id (r / s)))) := by
  simp only [decodeDimsGo]
  rw [hs]
  simp only [if_neg hs0, hid]
  rfl

theorem decodeDimsGoP_spec (d : JsonStatData α) (info : List (String × DimInfo))
    (hinfo : ∀ id ∈ d.id, dget info id = some (infoSpec d id))
    (hpos : ∀ s ∈ sizesOf d, 0 < s) (hnd : d.id.Nodup)
    (hbl : ∀ a ∈ d.id, ∀ b ∈ d.id, a ≠ b ++ "_label") :
    ∀ (suf : List String) (j r : Nat) (rec : Record α),
      d.id.drop j = suf →
      (∀ q ∈ rec, ∀ id ∈ suf, q.1 ≠ id ∧ q.1 ≠ id ++ "_label") →
      decodeDimsGo info (stridesSpec (sizesOf d)) (List.enumFrom j suf) r rec =
        .ok (rec ++ fieldsFrom d j r) := by
  intro suf
  induction suf with
  | nil =>
    intro j r rec hdrop _
    unfold fieldsFrom
    rw [hdrop]
    simp [decodeDimsGo, List.enumFrom]
  | cons id tl ih =>
    intro j r rec hdrop hfresh
    have hjlt : j < d.id.length := by
      by_contra hc
      push_neg at hc
      rw [List.drop_eq_nil_of_le hc] at hdrop
      exact List.cons_ne_nil _ _ hdrop.symm
    have hcons := List.drop_eq_getElem_cons hjlt
    rw [hdrop] at hcons
    have hget : id = d.id[j] := by
      have := List.cons.injEq id tl (d.id[j]) (d.id.drop (j + 1)) ▸ hcons
      exact this.1
    have htl : d.id.drop (j + 1) = tl := by
      have := List.cons.injEq id tl (d.id[j]) (d.id.drop (j + 1)) ▸ hcons
      exact this.2.symm
    have hidmem : id ∈ d.id := by
      rw [hget]
      exact List.getElem_mem hjlt
    have htlmem : ∀ a ∈ tl, a ∈ d.id := by
      intro a ha
      rw [← htl] at ha
      exact List.mem_of_mem_drop ha
    have hLlen : (sizesOf d).length = d.id.length := List.length_map _ _
    have hsget : (stridesSpec (sizesOf d)).get? j =
        some (((sizesOf d).drop (j + 1)).prod) :=
      stridesSpec_get? (sizesOf d) j (by rw [hLlen]; exact hjlt)
    have hsj : 0 < ((sizesOf d).drop (j + 1)).prod :=
      prod_pos_of_forall_pos (fun s hs => hpos s (List.mem_of_mem_drop hs))
    have hndsuf : (id :: tl).Nodup := by
      rw [← hdrop]
      exact hnd.sublist (List.drop_sublist j d.id)
    have hidtl : id ∉ tl := (List.nodup_cons.mp hndsuf).1
    have hstep := decodeDimsGoP_cons d info (stridesSpec (sizesOf d)) j id
      (List.enumFrom (j + 1) tl) r rec hsget (Nat.pos_iff_ne_zero.mp hsj)
      (hinfo id hidmem)
    have hfr1 : ∀ q ∈ rec, q.1 ≠ id :=
      fun q hq => (hfresh q hq id (List.mem_cons_self _ _)).1
    have hfr2 : ∀ q ∈ rec, q.1 ≠ id ++ "_label" :=
      fun q hq => (hfresh q hq id (List.mem_cons_self _ _)).2
    set sj := ((sizesOf d).drop (j + 1)).prod with hsjdef
    set cfield : String × PyVal α := (id, .str (codeAt d id (r / sj))) with hcf
    set lfield : String × PyVal α :=
      (id ++ "_label", .str (labelAt d id (r / sj))) with hlf
    have hins1 : dinsert rec id (.str (codeAt d id (r / sj))) =
        rec ++ [cfield] := Fertility.dinsert_eq_append _ hfr1
    have hins2 : dinsert (rec ++ [cfield]) (id ++ "_label")
        (.str (labelAt d id (r / sj))) = rec ++ [cfield] ++ [lfield] := by
      apply Fertility.dinsert_eq_append
      intro q hq
      rcases List.mem_append.mp hq with hq | hq
      · exact hfr2 q hq
      · rw [List.mem_singleton.mp hq, hcf]
        exact hbl id hidmem id hidmem
    rw [List.enumFrom_cons, hstep, hins1, hins2]
    have hfresh3 : ∀ q ∈ rec ++ [cfield] ++ [lfield], ∀ id' ∈ tl,
        q.1 ≠ id' ∧ q.1 ≠ id' ++ "_label" := by
      intro q hq id' hid'
      rcases List.mem_append.mp hq with hq | hq
      · rcases List.mem_append.mp hq with hq | hq
        · exact hfresh q hq id' (List.mem_cons_of_mem _ hid')
        · rw [List.mem_singleton.mp hq, hcf]
          constructor
          · intro hc
            have hcc : id = id' := hc
            exact hidtl (by rw [hcc]; exact hid')
          · exact hbl id hidmem id' (htlmem id' hid')
      · rw [List.mem_singleton.mp hq, hlf]
        constructor
        · exact Ne.symm (hbl id' (htlmem id' hid') id hidmem)
        · intro hc
          exact hidtl (append_label_inj hc ▸ hid')
    rw [ih (j + 1) (r % sj) (rec ++ [cfield] ++ [lfield]) htl hfresh3]
    have hsdrop1 : (sizesOf d).drop (j + 1) = tl.map (sizeOfDim d) := by
      unfold sizesOf
      rw [← List.map_drop, htl]
    have hsdrop : (sizesOf d).drop j = sizeOfDim d id :: tl.map (sizeOfDim d) := by
      unfold sizesOf
      rw [← List.map_drop, hdrop, List.map_cons]
    have hfields : fieldsFrom d j r =
        cfield :: lfield :: fieldsFrom d (j + 1) (r % sj) := by
      unfold fieldsFrom
      rw [hdrop, htl, hsdrop, hsdrop1]
      rw [digitsSpec]
      rw [List.zip_cons_cons, List.flatMap_cons]
      rw [hcf, hlf, hsjdef, hsdrop1]
      rfl
    rw [hfields]
    simp

theorem parseValuesGoP_spec (d : JsonStatData α)
    (info : List (String × DimInfo))
    (hinfo : ∀ id ∈ d.id, dget info id = some (infoSpec d id))
    (hpos : ∀ s ∈ sizesOf d, 0 < s) (hnd : d.id.Nodup)
    (hpop : "population" ∉ d.id)
    (hbl : ∀ a ∈ d.id, ∀ b ∈ d.id, a ≠ b ++ "_label") :
    ∀ (vs : List (Option α)) (i0 : Nat) (accR : List (Record α)),
      parseValuesGo d info (stridesSpec (sizesOf d))
          (List.enumFrom i0 vs) accR =
        .ok (accR ++
          (List.enumFrom i0 vs).filterMap (fun p => p.2.map (recAt d p.1))) := by
  intro vs
  induction vs with
  | nil =>
    intro i0 accR
    simp [parseValuesGo, List.enumFrom]
  | cons ov vs ih =>
    intro i0 accR
    rw [List.enumFrom_cons]
    cases ov with
    | none =>
      rw [show parseValuesGo d info (stridesSpec (sizesOf d))
          ((i0, none) :: List.enumFrom (i0 + 1) vs) accR =
        parseValuesGo d info (stridesSpec (sizesOf d))
          (List.enumFrom (i0 + 1) vs) accR from rfl]
      rw [ih]
      simp [List.filterMap_cons]
    | some v =>
      have hfresh : ∀ q ∈ ([("population", PyVal.num v)] : Record α),
          ∀ id ∈ d.id, q.1 ≠ id ∧ q.1 ≠ id ++ "_label" := by
        intro q hq id hid
        rw [List.mem_singleton.mp hq]
        refine ⟨fun hc => ?_, population_ne_label id⟩
        have hcc : "population" = id := hc
        exact hpop (by rw [hcc]; exact hid)
      have hdec := decodeDimsGoP_spec d info hinfo hpos hnd hbl d.id 0 i0
        [("population", .num v)] rfl hfresh
      have hstep : parseValuesGo d info (stridesSpec (sizesOf d))
          ((i0, some v) :: List.enumFrom (i0 + 1) vs) accR =
          (decodeDimsGo info (stridesSpec (sizesOf d)) d.id.enum i0
              [("population", .num v)]).bind
            (fun r => parseValuesGo d info (stridesSpec (sizesOf d))
              (List.enumFrom (i0 + 1) vs) (accR ++ [r])) := rfl
      rw [hstep]
      have henum : d.id.enum = List.enumFrom 0 d.id := rfl
      rw [henum, hdec, Except.bind, ih]
      simp [List.filterMap_cons, recAt]

/-- Structural description of the population-variant decoder: the value field
is keyed `"population"` and the code field carries the bare dimension id. -/
theorem parse_json_statP_eq (d : JsonStatData α)
    (hmeta : ∀ id ∈ d.id, (dget d.dimension id).isSome)
    (hlen : d.id.length ≤ d.size.length)
    (hpos : ∀ id ∈ d.id, 0 < sizeOfDim d id) (hnd : d.id.Nodup)
    (hpop : "population" ∉ d.id)
    (hbl : ∀ a ∈ d.id, ∀ b ∈ d.id, a ≠ b ++ "_label") :
    parse_json_stat d = .ok (parseSpec d) := by
  have hpos' : ∀ s ∈ sizesOf d, 0 < s := by
    intro s hs
    obtain ⟨id, hid, h⟩ := List.mem_map.mp hs
    rw [← h]
    exact hpos id hid
  obtain ⟨info, hbuild, hspec⟩ :=
    buildDimInfoP_spec d hmeta (Fertility.size_get_isSome_of_le d hlen)
  have hinfo : ∀ id ∈ d.id, dget info id = some (infoSpec d id) := by
    intro id hid
    rw [hspec id, if_pos hid]
  show (buildDimInfo d).bind _ = _
  rw [hbuild, Except.bind, Fertility.computeStrides_eq d info hinfo]
  have henum : d.value.enum = List.enumFrom 0 d.value := rfl
  rw [henum, parseValuesGoP_spec d info hinfo hpos' hnd hpop hbl d.value 0 []]
  unfold parseSpec
  rw [henum, List.nil_append]

end Population

theorem recAt_mem_parseSpec (d : JsonStatData α) {i : Nat} {v : α}
    (h : d.value.get? i = some (some v)) : recAt d i v ∈ parseSpec d := by
  unfold parseSpec
  apply List.mem_filterMap.mpr
  refine ⟨(i, some v), ?_, rfl⟩
  rw [List.mem_enum_iff_getElem?, ← List.get?_eq_getElem?]
  exact h

/-! ### Claim C6 -/

/-- C6: a non-null cell is never dropped over a code-resolution failure — if
the computed category index of some dimension has no reverse-index entry, the
record is still emitted, the code field holds the stringified raw index, and
if that string is also absent from the label map the label field holds it
too. -/
theorem C6_out_of_range_fallback {α : Type} (d : JsonStatData α)
    (hdim : d.dimension ≠ []) (hlen : d.id.length ≤ d.size.length)
    (hpos : ∀ id ∈ d.id, 0 < sizeOfDim d id) (hnd : d.id.Nodup)
    {i : Nat} {v : α} (hv : d.value.get? i = some (some v))
    {id : String} (hid : id ∈ d.id)
    (hmiss : dget (revIndexOf d id) (digitOf d id i) = none) :
    ∃ recs, Fertility.parse_json_stat d = .ok recs ∧
      recAt d i v ∈ recs ∧
      dget (recAt d i v) (id ++ "_code") =
        some (.str (toString (digitOf d id i))) ∧
      (dget (catOf d id).label (toString (digitOf d id i)) = none →
        dget (recAt d i v) (id ++ "_label") =
          some (.str (toString (digitOf d id i)))) := by
  have hcode : codeAt d id (digitOf d id i) = toString (digitOf d id i) := by
    unfold codeAt
    rw [hmiss]
    rfl
  refine ⟨parseSpec d, Fertility.parse_json_stat_eq d hdim hlen hpos hnd,
    recAt_mem_parseSpec d hv, ?_, ?_⟩
  · rw [dget_recAt_code d hnd i v hid, hcode]
  · intro hlab
    rw [dget_recAt_label d hnd i v hid]
    unfold labelAt
    rw [hcode, hlab]
    rfl

/-- Witness for C6: a one-dimensional table of declared size 2 with a single
indexed category; flat index 1 falls outside the index and still yields a
record with code and label both the string 1. -/
theorem C6_witness :
    exTableMissIdx.dimension ≠ [] ∧
    (∃ recs, Fertility.parse_json_stat exTableMissIdx = .ok recs ∧
      recAt exTableMissIdx 1 (7 : Int) ∈ recs ∧
      dget (recAt exTableMissIdx 1 (7 : Int)) ("A" ++ "_code") =
        some (.str (toString (digitOf exTableMissIdx "A" 1))) ∧
      (dget (catOf exTableMissIdx "A").label
          (toString (digitOf exTableMissIdx "A" 1)) = none →
        dget (recAt exTableMissIdx 1 (7 : Int)) ("A" ++ "_label") =
          some (.str (toString (digitOf exTableMissIdx "A" 1))))) :=
  ⟨by decide,
    C6_out_of_range_fallback exTableMissIdx (by decide) (by decide)
      (by decide) (by decide) (by decide) (by decide) (by decide)⟩

/-! ### Claim C7 -/

/-- C7: a dimension whose index holds a code that is absent from the label
map still produces the record, using the code itself as the label; a missing
label never causes a failure. -/
theorem C7_missing_label_fallback {α : Type} (d : JsonStatData α)
    (hdim : d.dimension ≠ []) (hlen : d.id.length ≤ d.size.length)
    (hpos : ∀ id ∈ d.id, 0 < sizeOfDim d id) (hnd : d.id.Nodup)
    {i : Nat} {v : α} (hv : d.value.get? i = some (some v))
    {id : String} (hid : id ∈ d.id) {c : String}
    (hcode : dget (revIndexOf d id) (digitOf d id i) = some c)
    (hnolabel : dget (catOf d id).label c = none) :
    ∃ recs, Fertility.parse_json_stat d = .ok recs ∧
      recAt d i v ∈ recs ∧
      dget (recAt d i v) (id ++ "_code") = some (.str c) ∧
      dget (recAt d i v) (id ++ "_label") = some (.str c) := by
  have hc : codeAt d id (digitOf d id i) = c := by
    unfold codeAt
    rw [hcode]
    rfl
  refine ⟨parseSpec d, Fertility.parse_json_stat_eq d hdim hlen hpos hnd,
    recAt_mem_parseSpec d hv, ?_, ?_⟩
  · rw [dget_recAt_code d hnd i v hid, hc]
  · rw [dget_recAt_label d hnd i v hid]
    unfold labelAt
    rw [hc, hnolabel]
    rfl

/-- Witness for C7: code B is indexed at position 1 but has no label; the
record at flat index 1 carries code B and label B. -/
theorem C7_witness :
    exTableMissLabel.dimension ≠ [] ∧
    (∃ recs, Fertility.parse_json_stat exTableMissLabel = .ok recs ∧
      recAt exTableMissLabel 1 (7 : Int) ∈ recs ∧
      dget (recAt exTableMissLabel 1 (7 : Int)) ("A" ++ "_code") =
        some (.str "B") ∧
      dget (recAt exTableMissLabel 1 (7 : Int)) ("A" ++ "_label") =
        some (.str "B")) :=
  ⟨by decide,
    C7_missing_label_fallback exTableMissLabel (by decide) (by decide)
      (by decide) (by decide) (by decide) (by decide) (by decide) (by decide)⟩

/-! ### Claim C9 -/

/-- C9 (counterexample): on a table whose only dimension elides the index map
but whose label map happens to contain the stringified position 0, the
decoder raises no error and emits the positional code 0, but the label is the
label-map entry Total — not the stringified positional index the claim
asserts. -/
theorem C9_counterexample :
    (catOf exTableNoIndex "A").index = [] ∧
    (Fertility.parse_json_stat exTableNoIndex).toOption =
      some [[("value", .num 9), ("A_code", .str "0"),
             ("A_label", .str "Total")]] ∧
    ("Total" : String) ≠ "0" := by
  decide

/-- C9 (amended): if a dimension's category metadata has no index map, its
reverse index is empty, the decoder raises no error, and in every emitted
record that dimension's code is the stringified positional index while the
label is the label-map entry for that string when one exists, else the string
itself. -/
theorem C9_amended {α : Type} (d : JsonStatData α)
    (hdim : d.dimension ≠ []) (hlen : d.id.length ≤ d.size.length)
    (hpos : ∀ id ∈ d.id, 0 < sizeOfDim d id) (hnd : d.id.Nodup)
    {id : String} (hid : id ∈ d.id)
    (hempty : (catOf d id).index = []) :
    revIndexOf d id = [] ∧
    ∃ recs, Fertility.parse_json_stat d = .ok recs ∧
      ∀ i v, d.value.get? i = some (some v) →
        recAt d i v ∈ recs ∧
        dget (recAt d i v) (id ++ "_code") =
          some (.str (toString (digitOf d id i))) ∧
        dget (recAt d i v) (id ++ "_label") =
          some (.str ((dget (catOf d id).label
            (toString (digitOf d id i))).getD (toString (digitOf d id i)))) := by
  have hrev : revIndexOf d id = [] := by
    unfold revIndexOf
    rw [hempty]
    rfl
  refine ⟨hrev, parseSpec d,
    Fertility.parse_json_stat_eq d hdim hlen hpos hnd, ?_⟩
  intro i v hv
  have hcode : codeAt d id (digitOf d id i) = toString (digitOf d id i) := by
    unfold codeAt
    rw [hrev]
    rfl
  refine ⟨recAt_mem_parseSpec d hv, ?_, ?_⟩
  · rw [dget_recAt_code d hnd i v hid, hcode]
  · rw [dget_recAt_label d hnd i v hid]
    unfold labelAt
    rw [hcode]

/-- Witness for C9 (amended), at the index-less table: the label map does
contain the string 0, so the label is Total. -/
theorem C9_amended_witness :
    exTableNoIndex.dimension ≠ [] ∧
    (revIndexOf exTableNoIndex "A" = [] ∧
    ∃ recs, Fertility.parse_json_stat exTableNoIndex = .ok recs ∧
      ∀ i v, exTableNoIndex.value.get? i = some (some v) →
        recAt exTableNoIndex i v ∈ recs ∧
        dget (recAt exTableNoIndex i v) ("A" ++ "_code") =
          some (.str (toString (digitOf exTableNoIndex "A" i))) ∧
        dget (recAt exTableNoIndex i v) ("A" ++ "_label") =
          some (.str ((dget (catOf exTableNoIndex "A").label
            (toString (digitOf exTableNoIndex "A" i))).getD
              (toString (digitOf exTableNoIndex "A" i))))) :=
  ⟨by decide,
    C9_amended exTableNoIndex (by decide) (by decide) (by decide) (by decide)
      (by decide) (by decide)⟩

/-! ### Index transposition between two declared dimension orders -/

theorem digitOf_lt (d : JsonStatData α) (hpos : ∀ s ∈ sizesOf d, 0 < s)
    {i : Nat} (hi : i < (sizesOf d).prod) {id : String} (hid : id ∈ d.id) :
    digitOf d id i < sizeOfDim d id := by
  have hj : d.id.indexOf id < d.id.length := List.indexOf_lt_length.mpr hid
  have hjs : d.id.indexOf id < (sizesOf d).length := by
    rw [length_sizesOf]
    exact hj
  have hjd : d.id.indexOf id < (digitsSpec (sizesOf d) i).length := by
    rw [length_digitsSpec]
    exact hjs
  have hf := digitsSpec_lt (sizesOf d) hpos i hi
  have hlt := (List.forall₂_iff_get.mp hf).2 (d.id.indexOf id) hjd hjs
  have hdig : digitOf d id i =
      (digitsSpec (sizesOf d) i)[d.id.indexOf id] := by
    unfold digitOf
    rw [List.getD_eq_getD_get?, List.get?_eq_get hjd]
    rfl
  have hsz : (sizesOf d)[d.id.indexOf id] = sizeOfDim d id := by
    unfold sizesOf
    rw [List.getElem_map]
    congr 1
    exact List.getElem_indexOf hj
  rw [hdig, ← hsz]
  exact hlt

theorem transposed_digits_lt (d1 d2 : JsonStatData α)
    (hperm : d2.id.Perm d1.id)
    (hsz : ∀ id ∈ d1.id, sizeOfDim d2 id = sizeOfDim d1 id)
    (h2pos : ∀ s ∈ sizesOf d2, 0 < s)
    {i : Nat} (hi : i < (sizesOf d2).prod) :
    List.Forall₂ (· < ·) (d1.id.map (fun id => digitOf d2 id i))
      (sizesOf d1) := by
  rw [List.forall₂_iff_get]
  constructor
  · rw [List.length_map, length_sizesOf]
  · intro j h1 h2
    rw [List.length_map] at h1
    have hidmem1 : d1.id[j] ∈ d1.id := List.getElem_mem h1
    have hidmem2 : d1.id[j] ∈ d2.id := hperm.mem_iff.mpr hidmem1
    have hlt := digitOf_lt d2 h2pos hi hidmem2
    rw [hsz _ hidmem1] at hlt
    rw [List.get_eq_getElem, List.get_eq_getElem, List.getElem_map]
    have hsz1 : (sizesOf d1)[j] = sizeOfDim d1 (d1.id[j]) := by
      unfold sizesOf
      rw [List.getElem_map]
    rw [hsz1]
    exact hlt

theorem transposeIdx_lt (d1 d2 : JsonStatData α)
    (hperm : d2.id.Perm d1.id)
    (hsz : ∀ id ∈ d1.id, sizeOfDim d2 id = sizeOfDim d1 id)
    (h2pos : ∀ s ∈ sizesOf d2, 0 < s)
    {i : Nat} (hi : i < (sizesOf d2).prod) :
    transposeIdx d1 d2 i < (sizesOf d1).prod :=
  recompose_lt (transposed_digits_lt d1 d2 hperm hsz h2pos hi)

theorem digitsSpec_transposeIdx (d1 d2 : JsonStatData α)
    (hperm : d2.id.Perm d1.id)
    (hsz : ∀ id ∈ d1.id, sizeOfDim d2 id = sizeOfDim d1 id)
    (h2pos : ∀ s ∈ sizesOf d2, 0 < s)
    {i : Nat} (hi : i < (sizesOf d2).prod) :
    digitsSpec (sizesOf d1) (transposeIdx d1 d2 i) =
      d1.id.map (fun id => digitOf d2 id i) :=
  digitsSpec_recompose (transposed_digits_lt d1 d2 hperm hsz h2pos hi)

theorem digitOf_transposeIdx (d1 d2 : JsonStatData α)
    (hperm : d2.id.Perm d1.id)
    (hsz : ∀ id ∈ d1.id, sizeOfDim d2 id = sizeOfDim d1 id)
    (h2pos : ∀ s ∈ sizesOf d2, 0 < s)
    {i : Nat} (hi : i < (sizesOf d2).prod) {id : String} (hid : id ∈ d1.id) :
    digitOf d1 id (transposeIdx d1 d2 i) = digitOf d2 id i := by
  have hj : d1.id.indexOf id < d1.id.length := List.indexOf_lt_length.mpr hid
  have hmap : d1.id.indexOf id <
      (d1.id.map (fun id => digitOf d2 id i)).length := by
    rw [List.length_map]
    exact hj
  show (digitsSpec (sizesOf d1) (transposeIdx d1 d2 i)).getD
    (d1.id.indexOf id) 0 = digitOf d2 id i
  rw [digitsSpec_transposeIdx d1 d2 hperm hsz h2pos hi,
    List.getD_eq_getD_get?, List.get?_eq_get hmap]
  show (d1.id.map (fun id => digitOf d2 id i))[d1.id.indexOf id] = _
  rw [List.getElem_map]
  congr 1
  exact List.getElem_indexOf hj

theorem map_digitOf_eq_digits (d : JsonStatData α) (hnd : d.id.Nodup)
    (i : Nat) :
    d.id.map (fun id => digitOf d id i) = digitsSpec (sizesOf d) i := by
  apply List.ext_getElem
  · rw [List.length_map, length_digitsSpec, length_sizesOf]
  · intro j h1 h2
    rw [List.getElem_map]
    exact digitOf_getElem d hnd i j (by rw [List.length_map] at h1; exact h1) h2

theorem transpose_transpose (d1 d2 : JsonStatData α)
    (hperm : d2.id.Perm d1.id) (h2nd : d2.id.Nodup)
    (hsz : ∀ id ∈ d1.id, sizeOfDim d2 id = sizeOfDim d1 id)
    (h2pos : ∀ s ∈ sizesOf d2, 0 < s)
    {i : Nat} (hi : i < (sizesOf d2).prod) :
    transposeIdx d2 d1 (transposeIdx d1 d2 i) = i := by
  show recompose (sizesOf d2)
    (d2.id.map (fun id => digitOf d1 id (transposeIdx d1 d2 i))) = i
  have hmapeq : d2.id.map (fun id => digitOf d1 id (transposeIdx d1 d2 i)) =
      d2.id.map (fun id => digitOf d2 id i) := by
    apply List.map_congr_left
    intro id hid
    exact digitOf_transposeIdx d1 d2 hperm hsz h2pos hi (hperm.mem_iff.mp hid)
  rw [hmapeq, map_digitOf_eq_digits d2 h2nd i]
  exact recompose_digitsSpec (sizesOf d2) h2pos i hi

theorem codeAt_eq_of_meta (d1 d2 : JsonStatData α) (id : String)
    (h : dget d2.dimension id = dget d1.dimension id) (k : Nat) :
    codeAt d2 id k = codeAt d1 id k := by
  unfold codeAt revIndexOf catOf
  rw [h]

theorem semOf_recAt (d : JsonStatData α) (L : List String) (hnd : d.id.Nodup)
    (hsub : ∀ id ∈ L, id ∈ d.id) (i : Nat) (v : α) :
    semOf L (recAt d i v) =
      (L.map (fun id => some (PyVal.str (codeAt d id (digitOf d id i)))),
       some (.num v)) := by
  unfold semOf
  rw [dget_recAt_value d i v]
  congr 1
  apply List.map_congr_left
  intro id hid
  exact dget_recAt_code d hnd i v (hsub id hid)

theorem multiset_filterMap_congr {β γ : Type} {f g : β → Option γ} :
    ∀ {s : Multiset β}, (∀ x ∈ s, f x = g x) →
      s.filterMap f = s.filterMap g := by
  intro s
  refine Quotient.inductionOn s ?_
  intro l h
  show Multiset.filterMap f (l : Multiset β) = Multiset.filterMap g (l : Multiset β)
  rw [Multiset.filterMap_coe, Multiset.filterMap_coe]
  apply congrArg
  apply List.filterMap_congr
  intro x hx
  exact h x (by simpa using hx)

theorem enumFrom_filterMap_eq_range {β : Type} (f : Nat → α → β) :
    ∀ (vs : List (Option α)) (i0 : Nat),
      (List.enumFrom i0 vs).filterMap (fun p => p.2.map (f p.1)) =
        (List.range vs.length).filterMap
          (fun t => (vs.get? t).bind (fun ov => ov.map (f (i0 + t)))) := by
  intro vs
  induction vs with
  | nil => intro i0; rfl
  | cons ov vs ih =>
    intro i0
    rw [List.enumFrom_cons, List.filterMap_cons, List.length_cons,
      List.range_succ_eq_map, List.filterMap_cons, List.filterMap_map]
    have hrest : (List.range vs.length).filterMap
        ((fun t => ((ov :: vs).get? t).bind (fun o => o.map (f (i0 + t)))) ∘
          Nat.succ) =
        (List.range vs.length).filterMap
          (fun t => (vs.get? t).bind (fun o => o.map (f (i0 + 1 + t)))) := by
      apply List.filterMap_congr
      intro t _
      show ((ov :: vs).get? (t + 1)).bind (fun o => o.map (f (i0 + (t + 1)))) = _
      rw [List.get?_cons_succ]
      have : i0 + (t + 1) = i0 + 1 + t := by omega
      rw [this]
    rw [hrest, ← ih (i0 + 1)]
    simp only [List.get?_cons_zero, Option.some_bind, Nat.add_zero]

/-! ### Claim C5 -/

/-- C5: two tables with identical dimension metadata but different declared
id orders, whose value arrays are transposes of the same N-dimensional
content, decode to the same semantic multiset of records — the same code
combinations (read in a common dimension order) paired with the same
values. -/
theorem C5_order_invariance {α : Type} (d1 d2 : JsonStatData α)
    (h1dim : d1.dimension ≠ []) (h2dim : d2.dimension ≠ [])
    (h1len : d1.id.length ≤ d1.size.length)
    (h2len : d2.id.length ≤ d2.size.length)
    (h1pos : ∀ id ∈ d1.id, 0 < sizeOfDim d1 id)
    (h1nd : d1.id.Nodup) (h2nd : d2.id.Nodup)
    (hperm : d2.id.Perm d1.id)
    (hmeta : ∀ id ∈ d1.id, dget d2.dimension id = dget d1.dimension id)
    (hsz : ∀ id ∈ d1.id, sizeOfDim d2 id = sizeOfDim d1 id)
    (h1wf : d1.value.length = (sizesOf d1).prod)
    (h2wf : d2.value.length = (sizesOf d2).prod)
    (hval : ∀ i, i < (sizesOf d2).prod →
      d2.value.get? i = d1.value.get? (transposeIdx d1 d2 i)) :
    ∃ recs1 recs2, Fertility.parse_json_stat d1 = .ok recs1 ∧
      Fertility.parse_json_stat d2 = .ok recs2 ∧
      (recs2.map (semOf d1.id)).Perm (recs1.map (semOf d1.id)) := by
  have h2pos : ∀ id ∈ d2.id, 0 < sizeOfDim d2 id := by
    intro id hid
    have hid1 : id ∈ d1.id := hperm.mem_iff.mp hid
    rw [hsz id hid1]
    exact h1pos id hid1
  have h1pos' : ∀ s ∈ sizesOf d1, 0 < s := by
    intro s hs
    obtain ⟨id, hid, h⟩ := List.mem_map.mp hs
    rw [← h]
    exact h1pos id hid
  have h2pos' : ∀ s ∈ sizesOf d2, 0 < s := by
    intro s hs
    obtain ⟨id, hid, h⟩ := List.mem_map.mp hs
    rw [← h]
    exact h2pos id hid
  -- the two size lists are permutations, so the products agree
  have hszperm : (sizesOf d2).Perm (sizesOf d1) := by
    have h1 : (d2.id.map (sizeOfDim d2)).Perm (d1.id.map (sizeOfDim d2)) :=
      hperm.map (sizeOfDim d2)
    have h2 : d1.id.map (sizeOfDim d2) = d1.id.map (sizeOfDim d1) :=
      List.map_congr_left hsz
    unfold sizesOf
    rw [← h2]
    exact h1
  have hprod : (sizesOf d2).prod = (sizesOf d1).prod := hszperm.prod_eq
  have hsz' : ∀ id ∈ d2.id, sizeOfDim d1 id = sizeOfDim d2 id := by
    intro id hid
    exact (hsz id (hperm.mem_iff.mp hid)).symm
  refine ⟨parseSpec d1, parseSpec d2,
    Fertility.parse_json_stat_eq d1 h1dim h1len h1pos h1nd,
    Fertility.parse_json_stat_eq d2 h2dim h2len h2pos h2nd, ?_⟩
  -- rewrite both sides as range-indexed filterMaps
  apply Multiset.coe_eq_coe.mp
  have hmap2 : (parseSpec d2).map (semOf d1.id) =
      (List.range d2.value.length).filterMap
        (fun t => (d2.value.get? t).bind
          (fun ov => ov.map (fun v => semOf d1.id (recAt d2 t v)))) := by
    unfold parseSpec
    rw [List.map_filterMap]
    rw [show d2.value.enum = List.enumFrom 0 d2.value from rfl]
    have heq := enumFrom_filterMap_eq_range
      (fun t v => semOf d1.id (recAt d2 t v)) d2.value 0
    simp only [Nat.zero_add] at heq
    rw [← heq]
    apply List.filterMap_congr
    intro p _
    rw [Option.map_map]
    rfl
  have hmap1 : (parseSpec d1).map (semOf d1.id) =
      (List.range d1.value.length).filterMap
        (fun t => (d1.value.get? t).bind
          (fun ov => ov.map (fun v => semOf d1.id (recAt d1 t v)))) := by
    unfold parseSpec
    rw [List.map_filterMap]
    rw [show d1.value.enum = List.enumFrom 0 d1.value from rfl]
    have heq := enumFrom_filterMap_eq_range
      (fun t v => semOf d1.id (recAt d1 t v)) d1.value 0
    simp only [Nat.zero_add] at heq
    rw [← heq]
    apply List.filterMap_congr
    intro p _
    rw [Option.map_map]
    rfl
  rw [hmap1, hmap2]
  rw [show ((List.range d2.value.length).filterMap
      (fun t => (d2.value.get? t).bind
        (fun ov => ov.map (fun v => semOf d1.id (recAt d2 t v)))) :
      Multiset _) = (Multiset.range d2.value.length).filterMap
        (fun t => (d2.value.get? t).bind
          (fun ov => ov.map (fun v => semOf d1.id (recAt d2 t v)))) from
    (Multiset.filterMap_coe _ _).symm]
  rw [show ((List.range d1.value.length).filterMap
      (fun t => (d1.value.get? t).bind
        (fun ov => ov.map (fun v => semOf d1.id (recAt d1 t v)))) :
      Multiset _) = (Multiset.range d1.value.length).filterMap
        (fun t => (d1.value.get? t).bind
          (fun ov => ov.map (fun v => semOf d1.id (recAt d1 t v)))) from
    (Multiset.filterMap_coe _ _).symm]
  -- pointwise: decoding cell i of d2 gives the semantics of cell σ i of d1
  have hpoint : ∀ t ∈ Multiset.range d2.value.length,
      (d2.value.get? t).bind
        (fun ov => ov.map (fun v => semOf d1.id (recAt d2 t v))) =
      ((fun j => (d1.value.get? j).bind
        (fun ov => ov.map (fun v => semOf d1.id (recAt d1 j v)))) ∘
          transposeIdx d1 d2) t := by
    intro t ht
    have htN : t < (sizesOf d2).prod := by
      rw [Multiset.mem_range, h2wf] at ht
      exact ht
    show (d2.value.get? t).bind _ =
      (d1.value.get? (transposeIdx d1 d2 t)).bind _
    rw [hval t htN]
    congr 1
    funext ov
    congr 1
    funext v
    have hs2 : semOf d1.id (recAt d2 t v) =
        (d1.id.map (fun id =>
          some (PyVal.str (codeAt d2 id (digitOf d2 id t)))),
         some (.num v)) :=
      semOf_recAt d2 d1.id h2nd (fun id hid => hperm.mem_iff.mpr hid) t v
    have hs1 : semOf d1.id (recAt d1 (transposeIdx d1 d2 t) v) =
        (d1.id.map (fun id => some (PyVal.str
          (codeAt d1 id (digitOf d1 id (transposeIdx d1 d2 t))))),
         some (.num v)) :=
      semOf_recAt d1 d1.id h1nd (fun id hid => hid) _ v
    rw [hs1, hs2]
    congr 1
    apply List.map_congr_left
    intro id hid
    rw [digitOf_transposeIdx d1 d2 hperm hsz h2pos' htN hid,
      codeAt_eq_of_meta d1 d2 id (hmeta id hid)]
  rw [multiset_filterMap_congr hpoint]
  rw [show (Multiset.range d2.value.length).filterMap
      ((fun j => (d1.value.get? j).bind
        (fun ov => ov.map (fun v => semOf d1.id (recAt d1 j v)))) ∘
          transposeIdx d1 d2) =
      ((Multiset.range d2.value.length).map (transposeIdx d1 d2)).filterMap
        (fun j => (d1.value.get? j).bind
          (fun ov => ov.map (fun v => semOf d1.id (recAt d1 j v)))) from
    (Multiset.filterMap_map _ _ _).symm]
  -- the transposition is a bijection of the index range
  have hrange : (Multiset.range d2.value.length).map (transposeIdx d1 d2) =
      Multiset.range d1.value.length := by
    have hN2 : d2.value.length = (sizesOf d2).prod := h2wf
    have hN1 : d1.value.length = (sizesOf d1).prod := h1wf
    have hmapnd : ((Multiset.range d2.value.length).map
        (transposeIdx d1 d2)).Nodup := by
      apply Multiset.Nodup.map_on ?_ (Multiset.nodup_range _)
      intro x hx y hy hxy
      rw [Multiset.mem_range, hN2] at hx hy
      have := congrArg (transposeIdx d2 d1) hxy
      rwa [transpose_transpose d1 d2 hperm h2nd hsz h2pos' hx,
        transpose_transpose d1 d2 hperm h2nd hsz h2pos' hy] at this
    apply (Multiset.Nodup.ext hmapnd (Multiset.nodup_range _)).mpr
    intro a
    constructor
    · intro ha
      obtain ⟨b, hb, hba⟩ := Multiset.mem_map.mp ha
      rw [Multiset.mem_range, hN2] at hb
      rw [Multiset.mem_range, hN1, ← hba]
      exact transposeIdx_lt d1 d2 hperm hsz h2pos' hb
    · intro ha
      rw [Multiset.mem_range, hN1] at ha
      apply Multiset.mem_map.mpr
      refine ⟨transposeIdx d2 d1 a, ?_, ?_⟩
      · rw [Multiset.mem_range, hN2]
        exact transposeIdx_lt d2 d1 hperm.symm hsz' h1pos' ha
      · exact transpose_transpose d2 d1 hperm.symm h1nd hsz' h1pos' ha
  rw [hrange]

/-- Witness for C5: the concrete scenario and its transpose (declared order
[Category, Year], value array reordered accordingly) decode to the same
semantic multiset of records. -/
theorem C5_witness :
    exTable.dimension ≠ [] ∧ exTableT.id.Perm exTable.id ∧
    (∃ recs1 recs2, Fertility.parse_json_stat exTable = .ok recs1 ∧
      Fertility.parse_json_stat exTableT = .ok recs2 ∧
      (recs2.map (semOf exTable.id)).Perm (recs1.map (semOf exTable.id))) :=
  ⟨by decide, by decide,
    C5_order_invariance exTable exTableT (by decide) (by decide) (by decide)
      (by decide) (by decide) (by decide) (by decide) (by decide) (by decide)
      (by decide) (by decide) (by decide) (by decide)⟩

/-! ### Claim C8 -/

/-- C8 (counterexample): the population-variant decoder emits records keyed
`"population"` (not `"value"`) whose code field is the bare dimension id (not
`<dim>_code`), so not every decoder occurrence emits the claimed shape. -/
theorem C8_counterexample :
    (Population.parse_json_stat exTablePop).toOption =
      some [[("population", PyVal.num (7 : Int)), ("Vuosi", .str "2020"),
             ("Vuosi_label", .str "2020")]] ∧
    dget [("population", PyVal.num (7 : Int)), ("Vuosi", .str "2020"),
          ("Vuosi_label", .str "2020")] "value" = none ∧
    dget [("population", PyVal.num (7 : Int)), ("Vuosi", .str "2020"),
          ("Vuosi_label", .str "2020")] ("Vuosi" ++ "_code") = none := by
  decide

/-- C8 (amended): the fertility-style occurrences (fetch_fertility,
fetch_gdp_sectors, fetch_government_debt, fetch_public_spending,
fetch_spending_efficiency, fetch_trade_balance) emit flat records with a
`"value"` field plus `<dim>_code` and `<dim>_label` fields for every declared
dimension (fetch_employment_sectors is identical with `"employed"` in place
of `"value"`); the population-style occurrences (fetch_population,
fetch_municipal_debt) store the code under the bare dimension id, and
fetch_population keys the cell value `"population"`. -/
theorem C8_amended :
    (∀ (α : Type) (d : JsonStatData α), d.dimension ≠ [] →
      d.id.length ≤ d.size.length → (∀ id ∈ d.id, 0 < sizeOfDim d id) →
      d.id.Nodup →
      ∃ recs, Fertility.parse_json_stat d = .ok recs ∧
        ∀ r ∈ recs, (∃ v, dget r "value" = some (.num v)) ∧
          ∀ id ∈ d.id, (∃ c, dget r (id ++ "_code") = some (.str c)) ∧
            (∃ s, dget r (id ++ "_label") = some (.str s))) ∧
    (∀ (α : Type) (d : JsonStatData α),
      (∀ id ∈ d.id, (dget d.dimension id).isSome) →
      d.id.length ≤ d.size.length → (∀ id ∈ d.id, 0 < sizeOfDim d id) →
      d.id.Nodup → "population" ∉ d.id →
      (∀ a ∈ d.id, ∀ b ∈ d.id, a ≠ b ++ "_label") →
      Population.parse_json_stat d = .ok (Population.parseSpec d)) := by
  constructor
  · intro α d hdim hlen hpos hnd
    refine ⟨parseSpec d, Fertility.parse_json_stat_eq d hdim hlen hpos hnd, ?_⟩
    intro r hr
    obtain ⟨p, _, heq⟩ := List.mem_filterMap.mp hr
    cases hp2 : p.2 with
    | none =>
      rw [hp2] at heq
      simp at heq
    | some v =>
      rw [hp2] at heq
      simp only [Option.map_some'] at heq
      have hrec : r = recAt d p.1 v := (Option.some.inj heq).symm
      subst hrec
      refine ⟨⟨v, dget_recAt_value d p.1 v⟩, ?_⟩
      intro id hid
      exact ⟨⟨codeAt d id (digitOf d id p.1),
          dget_recAt_code d hnd p.1 v hid⟩,
        ⟨labelAt d id (digitOf d id p.1),
          dget_recAt_label d hnd p.1 v hid⟩⟩
  · intro α d hmeta hlen hpos hnd hpop hbl
    exact Population.parse_json_statP_eq d hmeta hlen hpos hnd hpop hbl

/-- Witness for C8 (amended): the fertility part at the concrete
two-dimensional table, the population part at a small one-dimensional
table. -/
theorem C8_amended_witness :
    exTable.dimension ≠ [] ∧
    (∀ id ∈ exTablePop.id, (dget exTablePop.dimension id).isSome) ∧
    (∃ recs, Fertility.parse_json_stat exTable = .ok recs ∧
      ∀ r ∈ recs, (∃ v, dget r "value" = some (.num v)) ∧
        ∀ id ∈ exTable.id, (∃ c, dget r (id ++ "_code") = some (.str c)) ∧
          (∃ s, dget r (id ++ "_label") = some (.str s))) ∧
    Population.parse_json_stat exTablePop =
      .ok (Population.parseSpec exTablePop) :=
  ⟨by decide, by decide,
    C8_amended.1 Int exTable (by decide) (by decide) (by decide) (by decide),
    C8_amended.2 Int exTablePop (by decide) (by decide) (by decide)
      (by decide) (by decide) (by decide)⟩

/-! ### Claim C2 -/

/-- C2: on the concrete table Year (2015, 2016) times Category (A, B, C) in
declared order [Year, Category] with value array [10, 11, 12, 20, 21, 22],
the decoder computes strides [3, 1], and the record for flat index 4 has
Year_code 2016, Category_code B and value 21. -/
theorem C2_concrete_scenario :
    ((Fertility.buildDimInfo exTable).map
        (Fertility.computeStrides exTable)).toOption = some [3, 1] ∧
    (Fertility.parse_json_stat exTable).toOption.bind
        (fun recs => recs.get? 4) =
      some [("value", .num 21), ("Year_code", .str "2016"),
            ("Year_label", .str "2016"), ("Category_code", .str "B"),
            ("Category_label", .str "B")] := by
  decide

/-! ### Claim C1 -/

/-- C1 (counterexample): on a table whose value-array length (5) differs from
the product of the declared sizes (6), the decoder does not raise any error —
let alone a MalformedTableError, which the code never defines — and emits
five records. -/
theorem C1_counterexample :
    exTableBadLen.value.length ≠ (sizesOf exTableBadLen).prod ∧
    (Fertility.parse_json_stat exTableBadLen).toOption.map List.length =
      some 5 := by
  decide

/-- C1 (amended): the decoder performs no size validation and defines no
MalformedTableError.  For every table with one positive size per declared
dimension and distinct dimension ids, decoding succeeds and emits one record
per non-null cell, whether or not the value-array length matches the product
of the declared sizes, and whether or not a dimension id has category
metadata (a missing entry is replaced by the empty category). -/
theorem C1_amended (d : JsonStatData α) (hdim : d.dimension ≠ [])
    (hlen : d.id.length ≤ d.size.length)
    (hpos : ∀ id ∈ d.id, 0 < sizeOfDim d id) (hnd : d.id.Nodup) :
    ∃ recs, Fertility.parse_json_stat d = .ok recs ∧
      recs.length = (d.value.filter Option.isSome).length :=
  ⟨parseSpec d, Fertility.parse_json_stat_eq d hdim hlen hpos hnd,
    length_parseSpec d⟩

/-- Witness for C1 (amended), at the malformed table of the counterexample. -/
theorem C1_amended_witness :
    exTableBadLen.dimension ≠ [] ∧
    (∃ recs, Fertility.parse_json_stat exTableBadLen = .ok recs ∧
      recs.length = (exTableBadLen.value.filter Option.isSome).length) :=
  ⟨by decide,
    C1_amended exTableBadLen (by decide) (by decide) (by decide) (by decide)⟩

/-! ### Claim C4 -/

/-- C4: for every table (nonempty dimension dict, one positive size per
declared dimension, distinct dimension ids) with n cells of which k are null,
the decoder emits exactly n - k records, in the same relative order as the
value array (that is exactly what `parseSpec` enumerates: ascending flat
index, null cells skipped); the record count is at most n, with equality iff
there are no null cells. -/
theorem C4_null_skipping (d : JsonStatData α) (hdim : d.dimension ≠ [])
    (hlen : d.id.length ≤ d.size.length)
    (hpos : ∀ id ∈ d.id, 0 < sizeOfDim d id) (hnd : d.id.Nodup) :
    ∃ recs, Fertility.parse_json_stat d = .ok recs ∧
      recs = parseSpec d ∧
      recs.length = d.value.length - (d.value.filter Option.isNone).length ∧
      recs.length ≤ d.value.length ∧
      (recs.length = d.value.length ↔ ∀ v ∈ d.value, v ≠ none) := by
  have hsum := filter_some_none_length d.value
  have hlenp := length_parseSpec d
  refine ⟨parseSpec d, Fertility.parse_json_stat_eq d hdim hlen hpos hnd, rfl,
    by omega, by omega, ?_⟩
  have hz : (d.value.filter Option.isNone).length = 0 ↔
      ∀ v ∈ d.value, v ≠ none := by
    rw [List.length_eq_zero, List.filter_eq_nil_iff]
    constructor
    · intro h v hv
      have := h v hv
      simp only [Option.isNone_iff_eq_none] at this
      exact this
    · intro h v hv
      simp only [Option.isNone_iff_eq_none]
      exact h v hv
  constructor
  · intro h
    rw [← hz]
    omega
  · intro h
    rw [← hz] at h
    omega

/-- Witness for C4, at the concrete table with one null cell: 5 of 6 cells
are non-null and exactly 5 records come out. -/
theorem C4_witness :
    exTableNull.dimension ≠ [] ∧
    (∃ recs, Fertility.parse_json_stat exTableNull = .ok recs ∧
      recs = parseSpec exTableNull ∧
      recs.length =
        exTableNull.value.length -
          (exTableNull.value.filter Option.isNone).length ∧
      recs.length ≤ exTableNull.value.length ∧
      (recs.length = exTableNull.value.length ↔
        ∀ v ∈ exTableNull.value, v ≠ none)) :=
  ⟨by decide,
    C4_null_skipping exTableNull (by decide) (by decide) (by decide)
      (by decide)⟩

/-! ### Claim C10 -/

theorem pearson_correlation_def (x y : List ℝ) :
    pearson_correlation x y =
      if x.length < 3 then 0
      else
        if Real.sqrt ((x.map (fun a => (a - x.sum / x.length) ^ 2)).sum) = 0 ∨
            Real.sqrt ((y.map (fun a => (a - y.sum / x.length) ^ 2)).sum) = 0
        then 0
        else ((x.zip y).map
            (fun p => (p.1 - x.sum / x.length) * (p.2 - y.sum / x.length))).sum /
          (Real.sqrt ((x.map (fun a => (a - x.sum / x.length) ^ 2)).sum) *
           Real.sqrt ((y.map (fun a => (a - y.sum / x.length) ^ 2)).sum)) := rfl

theorem sum_sq_nonneg (m : ℝ) (l : List ℝ) :
    0 ≤ (l.map (fun a => (a - m) ^ 2)).sum := by
  apply List.sum_nonneg
  intro b hb
  obtain ⟨a, _, h⟩ := List.mem_map.mp hb
  rw [← h]
  exact sq_nonneg _

theorem sum_sq_eq_zero_iff (m : ℝ) (l : List ℝ) :
    (l.map (fun a => (a - m) ^ 2)).sum = 0 ↔ ∀ a ∈ l, a = m := by
  induction l with
  | nil => simp
  | cons b l ih =>
    rw [List.map_cons, List.sum_cons]
    constructor
    · intro h
      have h1 : 0 ≤ (b - m) ^ 2 := sq_nonneg _
      have h2 : 0 ≤ (l.map (fun a => (a - m) ^ 2)).sum := sum_sq_nonneg m l
      have hb : (b - m) ^ 2 = 0 := by linarith
      have hr : (l.map (fun a => (a - m) ^ 2)).sum = 0 := by linarith
      intro a ha
      rcases List.mem_cons.mp ha with ha | ha
      · subst ha
        have := sq_eq_zero_iff.mp hb
        linarith
      · exact ih.mp hr a ha
    · intro h
      have hb : b = m := h b (List.mem_cons_self _ _)
      have hr := ih.mpr (fun a ha => h a (List.mem_cons_of_mem _ ha))
      rw [hb, hr]
      simp

/-- C10: pearson_correlation returns exactly 0 (without raising) whenever the
input has fewer than three points or either of the equal-length series has
zero variance (all deviations from the mean zero); otherwise it returns the
sample Pearson correlation coefficient.  Python floats are idealized as real
numbers. -/
theorem C10_pearson (x y : List ℝ) :
    (x.length < 3 → pearson_correlation x y = 0) ∧
    (y.length = x.length → zeroVariance x ∨ zeroVariance y →
      pearson_correlation x y = 0) ∧
    (y.length = x.length → 3 ≤ x.length → ¬zeroVariance x → ¬zeroVariance y →
      pearson_correlation x y = pearsonCoeff x y) := by
  refine ⟨fun h => by rw [pearson_correlation_def, if_pos h], ?_, ?_⟩
  · intro hlen h
    rw [pearson_correlation_def]
    by_cases hn : x.length < 3
    · rw [if_pos hn]
    · rw [if_neg hn, if_pos]
      rcases h with h | h
      · left
        rw [(sum_sq_eq_zero_iff _ _).mpr h]
        exact Real.sqrt_zero
      · right
        have hcast : (x.length : ℝ) = (y.length : ℝ) := by rw [hlen]
        have h' : ∀ a ∈ y, a = y.sum / (x.length : ℝ) := by
          intro a ha
          rw [hcast]
          exact h a ha
        rw [(sum_sq_eq_zero_iff _ _).mpr h']
        exact Real.sqrt_zero
  · intro hlen h3 hzx hzy
    have hcast : (x.length : ℝ) = (y.length : ℝ) := by rw [hlen]
    rw [pearson_correlation_def, if_neg (not_lt.mpr h3), if_neg]
    · unfold pearsonCoeff
      rw [show y.sum / (x.length : ℝ) = y.sum / (y.length : ℝ) from by
        rw [hcast]]
    · push_neg
      constructor
      · intro hc
        apply hzx
        intro a ha
        have hnn := sum_sq_nonneg (x.sum / (x.length : ℝ)) x
        have hle := Real.sqrt_eq_zero'.mp hc
        have hS : (x.map (fun a => (a - x.sum / (x.length : ℝ)) ^ 2)).sum = 0 := by
          linarith
        exact (sum_sq_eq_zero_iff _ _).mp hS a ha
      · intro hc
        apply hzy
        intro a ha
        have hnn := sum_sq_nonneg (y.sum / (x.length : ℝ)) y
        have hle := Real.sqrt_eq_zero'.mp hc
        have hS : (y.map (fun a => (a - y.sum / (x.length : ℝ)) ^ 2)).sum = 0 := by
          linarith
        have := (sum_sq_eq_zero_iff _ _).mp hS a ha
        rw [← hcast]
        exact this

/-- Witness for C10, at two three-point series of nonzero variance. -/
theorem C10_witness :
    (([0, 2, 4] : List ℝ).length = ([0, 1, 2] : List ℝ).length) ∧
    (3 ≤ ([0, 1, 2] : List ℝ).length) ∧
    ¬zeroVariance [0, 1, 2] ∧ ¬zeroVariance [0, 2, 4] ∧
    pearson_correlation [0, 1, 2] [0, 2, 4] =
      pearsonCoeff [0, 1, 2] [0, 2, 4] := by
  have hx : ¬zeroVariance ([0, 1, 2] : List ℝ) := by
    intro h
    have := h 0 (by simp)
    norm_num [List.sum_cons, List.sum_nil] at this
  have hy : ¬zeroVariance ([0, 2, 4] : List ℝ) := by
    intro h
    have := h 0 (by simp)
    norm_num [List.sum_cons, List.sum_nil] at this
  exact ⟨by simp, by simp, hx, hy,
    (C10_pearson [0, 1, 2] [0, 2, 4]).2.2 (by simp) (by simp) hx hy⟩

end TruthEngine
